import Mathlib

/-!
# nostr-vanity: prefix-constraint compiler and word-encoding codec

A shallow embedding of `src/main.cpp`.

* C arrays are lists; a write `a[i] = v` is `List.set`, a read `a[i]` is `List.getD`.
* `uint8_t` and `uint64_t` values are natural numbers; theorems that depend on the
  width carry the bound (`< 256`) as a hypothesis.
* `for (int i = 0; i < n; ++i) body` is `forLoop n body`.
* `*(uint64_t*)bytes` reads eight bytes in the byte order of the host, which the
  source does not fix: every definition that reinterprets memory takes the byte
  order as a parameter, and the theorems hold for both orders.
* `int` is 32 bits wide. A length or a product that does not fit in it has no defined
  value in C (signed overflow; compilers commonly wrap modulo `2^32`), so the model
  stops there with an outcome of its own and does not follow the execution further.
-/

namespace NostrVanity

/-! ## Data model -/

/-- Byte order of the host, used wherever the source reinterprets bytes as `uint64_t`. -/
inductive Endian where
  | little
  | big
  deriving DecidableEq, Repr

/-- Little-endian value of a byte sequence: the first byte is the least significant. -/
def loadLE : List Nat → Nat
  | [] => 0
  | b :: bs => b + 256 * loadLE bs

/-- The read `*(uint64_t*)bytes`: the first eight bytes as one 64-bit word. -/
def load64 (e : Endian) (bytes : List Nat) : Nat :=
  match e with
  | .little => loadLE (bytes.take 8)
  | .big => loadLE (bytes.take 8).reverse

/-- The first `n` bytes of a little-endian value. -/
def storeLE : Nat → Nat → List Nat
  | 0, _ => []
  | n + 1, v => v % 256 :: storeLE n (v / 256)

/-- The view `(uint8_t*)&x` of a 64-bit word: its eight bytes in memory order. -/
def store64 (e : Endian) (v : Nat) : List Nat :=
  match e with
  | .little => storeLE 8 v
  | .big => (storeLE 8 v).reverse

/-- The loop `for (int i = 0; i < n; ++i) s = body i s`. -/
def forLoop {σ : Type} (n : Nat) (body : Nat → σ → σ) (s : σ) : σ :=
  match n with
  | 0 => s
  | k + 1 => body k (forLoop k body s)

/-! ## BECH32 encoding tables -/

/-- The table `bech32_charset` (without the terminating NUL). -/
def bech32_charset : List Char :=
  ['q', 'p', 'z', 'r', 'y', '9', 'x', '8', 'g', 'f', '2', 't', 'v', 'd', 'w', '0',
   's', '3', 'j', 'n', '5', '4', 'k', 'h', 'c', 'e', '6', 'm', 'u', 'a', '7', 'l']

/-- The table `bech32_charset_rev[128]`. -/
def bech32_charset_rev : List Int :=
  [-1, -1, -1, -1, -1, -1, -1, -1, -1, -1, -1, -1, -1, -1, -1, -1,
   -1, -1, -1, -1, -1, -1, -1, -1, -1, -1, -1, -1, -1, -1, -1, -1,
   -1, -1, -1, -1, -1, -1, -1, -1, -1, -1, -1, -1, -1, -1, -1, -1,
   15, -1, 10, 17, 21, 20, 26, 30,  7,  5, -1, -1, -1, -1, -1, -1,
   -1, 29, -1, 24, 13, 25,  9,  8, 23, -1, 18, 22, 31, 27, 19, -1,
    1,  0,  3, 16, 11, 28, 12, 14,  6,  4,  2, -1, -1, -1, -1, -1,
   -1, 29, -1, 24, 13, 25,  9,  8, 23, -1, 18, 22, 31, 27, 19, -1,
    1,  0,  3, 16, 11, 28, 12, 14,  6,  4,  2, -1, -1, -1, -1, -1]

/-- The read `bech32_charset_rev[c]` for a character code inside the table. -/
def revLookup (c : Char) : Int :=
  bech32_charset_rev.getD c.toNat (-1)

/-! ## `bech32_create_bitfield` -/

/-- The ways `bech32_create_bitfield` does not produce a mask and a value. -/
inductive BitfieldError where
  /-- Returns `false` after "Prefix search string is too long :(". -/
  | tooLong
  /-- Returns `false` after "Invalid character '%c' at index %d (not bech32)". -/
  | invalidChar (c : Char) (i : Nat)
  /-- The index `text[i]` lies outside the 128 entries of `bech32_charset_rev`:
  the read is undefined in C. -/
  | outOfBounds (i : Nat)
  /-- The length `(int)strlen(text)` or the product `len * 5` does not fit in a 32-bit
  `int`: signed overflow, undefined in C. -/
  | intOverflow
  deriving DecidableEq, Repr

/-- The loop "Parse words": `words[i] = bech32_charset_rev[text[i]]`, returning at the
first character whose entry is `-1`. The second argument is the index of the head
of the remaining text. -/
def parseWords : List Char → Nat → Except BitfieldError (List Int)
  | [], _ => .ok []
  | c :: rest, i =>
    if c.toNat < 128 then
      if revLookup c = -1 then .error (.invalidChar c i)
      else
        match parseWords rest (i + 1) with
        | .ok ws => .ok (revLookup c :: ws)
        | .error err => .error err
    else .error (.outOfBounds i)

/-- The body of the loop "Break into bits" for index `i`. The word is an entry of
the table that is not `-1`, hence non-negative. -/
def setWordBits (words : List Int) (i : Nat) (bits : List Nat) : List Nat :=
  let w := (words.getD i 0).toNat
  ((((bits.set (i * 5 + 0) (if w &&& 16 ≠ 0 then 1 else 0)).set
      (i * 5 + 1) (if w &&& 8 ≠ 0 then 1 else 0)).set
      (i * 5 + 2) (if w &&& 4 ≠ 0 then 1 else 0)).set
      (i * 5 + 3) (if w &&& 2 ≠ 0 then 1 else 0)).set
      (i * 5 + 4) (if w &&& 1 ≠ 0 then 1 else 0)

/-- The loop "Break into bits" over the zeroed array `bits[64]`. -/
def breakIntoBits (words : List Int) : List Nat :=
  forLoop words.length (setWordBits words) (List.replicate 64 0)

/-- The expression assigned to `bytes[i]` in the loop "Convert to bytes". -/
def packByte (bits : List Nat) (i : Nat) : Nat :=
  (if bits.getD (i * 8 + 0) 0 ≠ 0 then 0x80 else 0) +
  (if bits.getD (i * 8 + 1) 0 ≠ 0 then 0x40 else 0) +
  (if bits.getD (i * 8 + 2) 0 ≠ 0 then 0x20 else 0) +
  (if bits.getD (i * 8 + 3) 0 ≠ 0 then 0x10 else 0) +
  (if bits.getD (i * 8 + 4) 0 ≠ 0 then 0x08 else 0) +
  (if bits.getD (i * 8 + 5) 0 ≠ 0 then 0x04 else 0) +
  (if bits.getD (i * 8 + 6) 0 ≠ 0 then 0x02 else 0) +
  (if bits.getD (i * 8 + 7) 0 ≠ 0 then 0x01 else 0)

/-- The loop "Convert to bytes": all eight entries of `bytes` are written. -/
def convertToBytes (bits : List Nat) : List Nat :=
  forLoop 8 (fun i bytes => bytes.set i (packByte bits i)) (List.replicate 8 0)

/-- The section "Create bit mask": `memset`, the loop writing `0xff`, and the `switch`
on `bits_rem`. -/
def createMask (len_bytes bits_rem : Nat) : List Nat :=
  let bytes_mask := forLoop len_bytes (fun i m => m.set i 0xff) (List.replicate 8 0)
  match bits_rem with
  | 1 => bytes_mask.set (len_bytes - 1) 0x80
  | 2 => bytes_mask.set (len_bytes - 1) 0xc0
  | 3 => bytes_mask.set (len_bytes - 1) 0xe0
  | 4 => bytes_mask.set (len_bytes - 1) 0xf0
  | 5 => bytes_mask.set (len_bytes - 1) 0xf8
  | 6 => bytes_mask.set (len_bytes - 1) 0xfc
  | 7 => bytes_mask.set (len_bytes - 1) 0xfe
  | _ => bytes_mask

/-- The largest value of a 32-bit `int`. -/
def INT_MAX : Nat := 2147483647

/-- The value of `len_bytes` once the product `len * 5` is known: `(len * 5) / 8`, plus
one when `(len * 5) % 8 > 0`. -/
def bytesOfBits (len_bits : Nat) : Nat :=
  if len_bits % 8 > 0 then len_bits / 8 + 1 else len_bits / 8

/-- The computation of `len_bytes` at the head of `bech32_create_bitfield`, in `int`
arithmetic. The result is `none` when `len * 5` exceeds `INT_MAX`, that is from
`len = 429496730` on: the product overflows, which is undefined in C. A compiler that
wraps modulo `2^32` gets `len * 5 = 4` and `len_bytes = 1` at `len = 858993460`, so
the check against 8 does not catch such a length. -/
def lenBytes (len : Nat) : Option Nat :=
  if len * 5 ≤ INT_MAX then some (bytesOfBits (len * 5)) else none

/-- The function `bech32_create_bitfield`: on success the pair `(mask, value)`. -/
def bech32_create_bitfield (e : Endian) (text : List Char) :
    Except BitfieldError (Nat × Nat) :=
  let len := text.length
  match lenBytes len with
  | none => .error .intOverflow
  | some len_bytes =>
    let bits_rem := (len * 5) % 8
    if len_bytes > 8 then .error .tooLong
    else
      match parseWords text 0 with
      | .error err => .error err
      | .ok words =>
        let bits := breakIntoBits words
        let bytes := convertToBytes bits
        let bytes_mask := createMask len_bytes bits_rem
        .ok (load64 e bytes_mask, load64 e bytes)

/-! ## `bytes_to_bech32` -/

/-- The body of the first loop of `bytes_to_bech32` for index `i`. -/
def setByteBits (bytes : List Nat) (i : Nat) (bits : List Nat) : List Nat :=
  let b := bytes.getD i 0
  (((((((bits.set (i * 8 + 0) (if b &&& 0x80 ≠ 0 then 1 else 0)).set
      (i * 8 + 1) (if b &&& 0x40 ≠ 0 then 1 else 0)).set
      (i * 8 + 2) (if b &&& 0x20 ≠ 0 then 1 else 0)).set
      (i * 8 + 3) (if b &&& 0x10 ≠ 0 then 1 else 0)).set
      (i * 8 + 4) (if b &&& 0x08 ≠ 0 then 1 else 0)).set
      (i * 8 + 5) (if b &&& 0x04 ≠ 0 then 1 else 0)).set
      (i * 8 + 6) (if b &&& 0x02 ≠ 0 then 1 else 0)).set
      (i * 8 + 7) (if b &&& 0x01 ≠ 0 then 1 else 0)

/-- The computation of `len_words` at the head of `bytes_to_bech32`. The product
`(int)len * 8` fits in `int` whenever the result is below 1024, the only case in
which `bytes_to_bech32` returns. -/
def lenWords (len : Nat) : Nat :=
  if (len * 8) % 5 > 0 then (len * 8) / 5 + 1 else (len * 8) / 5

/-- The array `bits` of `bytes_to_bech32` after `memset` and the first loop. -/
def encodeBits (bytes : List Nat) : List Nat :=
  forLoop bytes.length (setByteBits bytes) (List.replicate (lenWords bytes.length * 5) 0)

/-- The value of `word` in iteration `i` of the second loop of `bytes_to_bech32`. -/
def packWord (bits : List Nat) (i : Nat) : Nat :=
  (if bits.getD (i * 5 + 0) 0 ≠ 0 then 0x10 else 0) +
  (if bits.getD (i * 5 + 1) 0 ≠ 0 then 0x08 else 0) +
  (if bits.getD (i * 5 + 2) 0 ≠ 0 then 0x04 else 0) +
  (if bits.getD (i * 5 + 3) 0 ≠ 0 then 0x02 else 0) +
  (if bits.getD (i * 5 + 4) 0 ≠ 0 then 0x01 else 0)

/-- The characters of a C string held in a buffer: those before the first NUL. -/
def cString (buf : List Char) : List Char :=
  buf.takeWhile (fun c => c ≠ '\x00')

/-- The function `bytes_to_bech32`. The result is `none` when
`assert(len_words < sizeof(output))` fails, which in this model includes every length
from `2^28` bytes on, where `(int)len * 8` does not fit in `int`; otherwise it is the
string left in the static buffer `output[1024]`. -/
def bytes_to_bech32 (bytes : List Nat) : Option (List Char) :=
  let len_words := lenWords bytes.length
  let bits := encodeBits bytes
  if len_words < 1024 then
    let output := forLoop len_words
      (fun i out => out.set i (bech32_charset.getD (packWord bits i) '\x00'))
      (List.replicate 1024 '\x00')
    some (cString (output.set len_words '\x00'))
  else none

/-! ## Bit streams used to state the properties -/

/-- Bit `j` of the bit stream of the parsed words, five bits per word, most
significant first. -/
def wordsBit (ws : List Int) (j : Nat) : Bool :=
  ((ws.getD (j / 5) 0).toNat).testBit (4 - j % 5)

/-- Bit `j` of a byte stream, eight bits per byte, most significant first. -/
def streamBit (bs : List Nat) (j : Nat) : Bool :=
  (bs.getD (j / 8) 0).testBit (7 - j % 8)

/-- The index in memory of the byte that holds bits `8 * i .. 8 * i + 7` of a word. -/
def memIdx (e : Endian) (i : Nat) : Nat :=
  match e with
  | .little => i
  | .big => 7 - i

/-- The character written to `output[i]` by `bytes_to_bech32`. -/
def encodeChar (bytes : List Nat) (i : Nat) : Char :=
  bech32_charset.getD (packWord (encodeBits bytes) i) '\x00'

/-- The uppercase ASCII letters `A` to `Z`. -/
def uppercaseLetters : List Char :=
  ['A', 'B', 'C', 'D', 'E', 'F', 'G', 'H', 'I', 'J', 'K', 'L', 'M',
   'N', 'O', 'P', 'Q', 'R', 'S', 'T', 'U', 'V', 'W', 'X', 'Y', 'Z']

/-! ## Reference encoding, following the words of the specification -/

/-- The bits of one byte, most significant first. -/
def byteBitsMSB (x : Nat) : List Bool :=
  [x.testBit 7, x.testBit 6, x.testBit 5, x.testBit 4,
   x.testBit 3, x.testBit 2, x.testBit 1, x.testBit 0]

/-- The bits of one 5-bit value, most significant first. -/
def wordBitsMSB (w : Nat) : List Bool :=
  [w.testBit 4, w.testBit 3, w.testBit 2, w.testBit 1, w.testBit 0]

/-- The bitstream of a byte sequence: the bytes left to right, each most
significant bit first. -/
def bitstream (bytes : List Nat) : List Bool :=
  bytes.flatMap byteBitsMSB

/-- The number of characters of the encoding: `ceil(8 * n / 5)`. -/
def encodedLength (n : Nat) : Nat :=
  (8 * n + 4) / 5

/-- The bitstream padded with zero bits on the right to a multiple of 5. -/
def paddedBitstream (bytes : List Nat) : List Bool :=
  bitstream bytes ++ List.replicate (5 * encodedLength bytes.length - 8 * bytes.length) false

/-- The number formed by a group of bits, most significant first. -/
def bitsToNat (group : List Bool) : Nat :=
  group.foldl (fun acc b => 2 * acc + b.toNat) 0

/-- The reference encoding: character `j` is the charset symbol of the number formed
by bits `5 * j .. 5 * j + 4` of the padded bitstream. -/
def encode_ref (bytes : List Nat) : List Char :=
  (List.range (encodedLength bytes.length)).map fun j =>
    bech32_charset.getD (bitsToNat (((paddedBitstream bytes).drop (5 * j)).take 5)) '\x00'

/-! ## `bytes_to_hex` and `run_thread` -/

/-- One digit of the conversion `%02x`: `0` to `9`, then `a` to `f`. -/
def hexDigit (n : Nat) : Char :=
  if n < 10 then Char.ofNat ('0'.toNat + n) else Char.ofNat ('a'.toNat + (n - 10))

/-- The function `bytes_to_hex`: two lowercase hexadecimal digits per byte. -/
def bytes_to_hex (bytes : List Nat) : List Char :=
  bytes.flatMap fun b => [hexDigit (b / 16), hexDigit (b % 16)]

/-- The struct `Key` without its padding: the 32 bytes of the union, which the
source also reads and writes as the four 64-bit words `longs[4]`. -/
structure Key where
  bytes : List Nat
  deriving DecidableEq, Repr

/-- The read `key.longs[k]`. -/
def Key.long (e : Endian) (key : Key) (k : Nat) : Nat :=
  load64 e (key.bytes.drop (8 * k))

/-- The write `key.longs[k] = v`. -/
def Key.setLong (e : Endian) (key : Key) (k v : Nat) : Key :=
  ⟨key.bytes.take (8 * k) ++ store64 e v ++ key.bytes.drop (8 * k + 8)⟩

/-- The two calls into libsecp256k1 made by `compute_pubkey`, as a function of the
32 bytes of the private key: `none` when `secp256k1_ec_pubkey_create` returns 0,
otherwise the 33 bytes produced by `secp256k1_ec_pubkey_serialize`. -/
abbrev Derive : Type := List Nat → Option (List Nat)

/-- The function `compute_pubkey`, as the content of `*pubkey` after the call. When
the derivation fails it returns before writing anything. Otherwise the 33 bytes are
written from `pubkey->bytes - 1` on: the first lands in the padding, the other 32
in `bytes`. -/
def compute_pubkey (derive : Derive) (seckey pubkey : Key) : Key :=
  match derive seckey.bytes with
  | none => pubkey
  | some serialized => ⟨serialized.drop 1⟩

/-- The constant `REPORT_AMOUNT` of `run_thread`. -/
def REPORT_AMOUNT : Nat := 1000

/-- The state of one worker between two passes of its loop: the private key, the
local counter `i`, the sum this worker has added to `*total_count`, and the lines
it has printed. -/
structure Worker where
  seckey : Key
  i : Nat
  total_count : Nat
  printed : List (List Char)
  deriving DecidableEq, Repr

/-- The line printed on a match: `printf("npub1%s... %s\n", ...)`. -/
def matchLine (pubkeyText seckeyHex : List Char) : List Char :=
  ['n', 'p', 'u', 'b', '1'] ++ pubkeyText ++ ['.', '.', '.', ' '] ++ seckeyHex ++ ['\n']

/-- One pass of the body of `while (true)` in `run_thread`. The local `Key pubkey` is
declared without an initialiser: `stale` is what that memory holds when the pass
starts. `draw` is the value of `dist(rd)`. The result is `none` when the assertion
of `bytes_to_bech32` fails. -/
def run_thread_iteration (e : Endian) (derive : Derive) (prefix_mask prefix_value : Nat)
    (stale : Key) (draw : Nat) (w : Worker) : Option Worker :=
  -- Compute the pubkey
  let pubkey := compute_pubkey derive w.seckey stale
  -- Check for the prefix
  let printed : Option (List (List Char)) :=
    if pubkey.long e 0 &&& prefix_mask = prefix_value then
      match bytes_to_bech32 (pubkey.bytes.take 16) with
      | some text => some (w.printed ++ [matchLine text (bytes_to_hex w.seckey.bytes)])
      | none => none
    else some w.printed
  match printed with
  | none => none
  | some printed =>
    -- Change (one part of) the seckey
    let seckey := w.seckey.setLong e (w.i % 4) draw
    let i := w.i + 1
    -- Update the total count?
    if i = REPORT_AMOUNT then
      some ⟨seckey, 0, w.total_count + REPORT_AMOUNT, printed⟩
    else
      some ⟨seckey, i, w.total_count, printed⟩

/-- The first `n` passes of the loop of `run_thread`; pass `k` starts with `stale k`
in the memory of `pubkey` and draws `draws k`. -/
def run_thread_passes (e : Endian) (derive : Derive) (prefix_mask prefix_value : Nat)
    (stale : Nat → Key) (draws : Nat → Nat) : Nat → Worker → Option Worker
  | 0, w => some w
  | n + 1, w =>
    match run_thread_passes e derive prefix_mask prefix_value stale draws n w with
    | none => none
    | some w1 => run_thread_iteration e derive prefix_mask prefix_value (stale n) (draws n) w1

/-- The error of a run on the lowercased text, given the error of the run on the
text: the character reported is the lowercased one, at the same index. -/
def lowerError : BitfieldError → BitfieldError
  | .invalidChar c i => .invalidChar c.toLower i
  | err => err

/-! # Theorems -/

/-! ## Bits of natural numbers -/

theorem and_two_pow_ne_zero_iff (x k : Nat) : x &&& 2 ^ k ≠ 0 ↔ x.testBit k = true := by
  constructor
  · intro h
    by_contra hb
    apply h
    apply Nat.eq_of_testBit_eq
    intro i
    simp only [Nat.testBit_and, Nat.testBit_two_pow, Nat.zero_testBit, Bool.and_eq_false_imp,
      decide_eq_false_iff_not]
    intro hi hk
    subst hk
    exact hb hi
  · intro hb h
    have h2 := congrArg (fun y => y.testBit k) h
    simp [Nat.testBit_two_pow, hb] at h2

/-- The C expression `(x & 2^k) ? 1 : 0` is bit `k` of `x`. -/
theorem ite_and_two_pow (x k : Nat) :
    (if x &&& 2 ^ k ≠ 0 then 1 else 0) = (x.testBit k).toNat := by
  by_cases h : x.testBit k = true
  · rw [if_pos ((and_two_pow_ne_zero_iff x k).2 h), h]; rfl
  · rw [if_neg (fun hc => h ((and_two_pow_ne_zero_iff x k).1 hc))]
    simp only [Bool.not_eq_true] at h
    rw [h]; rfl

theorem ite_and_128 (x : Nat) : (if x &&& 0x80 ≠ 0 then 1 else 0) = (x.testBit 7).toNat :=
  ite_and_two_pow x 7

theorem ite_and_64 (x : Nat) : (if x &&& 0x40 ≠ 0 then 1 else 0) = (x.testBit 6).toNat :=
  ite_and_two_pow x 6

theorem ite_and_32 (x : Nat) : (if x &&& 0x20 ≠ 0 then 1 else 0) = (x.testBit 5).toNat :=
  ite_and_two_pow x 5

theorem ite_and_16 (x : Nat) : (if x &&& 16 ≠ 0 then 1 else 0) = (x.testBit 4).toNat :=
  ite_and_two_pow x 4

theorem ite_and_8 (x : Nat) : (if x &&& 8 ≠ 0 then 1 else 0) = (x.testBit 3).toNat :=
  ite_and_two_pow x 3

theorem ite_and_4 (x : Nat) : (if x &&& 4 ≠ 0 then 1 else 0) = (x.testBit 2).toNat :=
  ite_and_two_pow x 2

theorem ite_and_2 (x : Nat) : (if x &&& 2 ≠ 0 then 1 else 0) = (x.testBit 1).toNat :=
  ite_and_two_pow x 1

theorem ite_and_1 (x : Nat) : (if x &&& 1 ≠ 0 then 1 else 0) = (x.testBit 0).toNat :=
  ite_and_two_pow x 0

theorem toNat_ne_zero_iff (b : Bool) : b.toNat ≠ 0 ↔ b = true := by
  cases b <;> simp

theorem getD_set_nat (l : List Nat) (a v j : Nat) :
    (l.set a v).getD j 0 = if j = a ∧ a < l.length then v else l.getD j 0 := by
  simp only [List.getD_eq_getElem?_getD, List.getElem?_set]
  by_cases h : a = j
  · subst h
    by_cases h2 : a < l.length
    · simp [h2]
    · have h4 : l[a]? = none := List.getElem?_eq_none (by omega)
      simp [h2, h4]
  · have h3 : ¬ j = a := fun hc => h hc.symm
    simp [h, h3]


theorem getD_replicate_zero (m j : Nat) : (List.replicate m (0 : Nat)).getD j 0 = 0 := by
  rw [List.getD_eq_getElem?_getD, List.getElem?_replicate]
  split <;> rfl

/-! ## The loops of `bech32_create_bitfield` -/

theorem length_setWordBits (ws : List Int) (i : Nat) (bits : List Nat) :
    (setWordBits ws i bits).length = bits.length := by
  simp [setWordBits]

theorem getD_setWordBits (ws : List Int) (i : Nat) (bits : List Nat) (j : Nat)
    (h : i * 5 + 5 ≤ bits.length) :
    (setWordBits ws i bits).getD j 0 =
      if i * 5 ≤ j ∧ j < i * 5 + 5 then (wordsBit ws j).toNat else bits.getD j 0 := by
  unfold setWordBits
  simp only [getD_set_nat, List.length_set, ite_and_16, ite_and_8, ite_and_4, ite_and_2,
    ite_and_1]
  by_cases hj : i * 5 ≤ j ∧ j < i * 5 + 5
  · rw [if_pos hj]
    obtain ⟨k, hk, rfl⟩ : ∃ k, k < 5 ∧ j = i * 5 + k := ⟨j - i * 5, by omega, by omega⟩
    have hd : (i * 5 + k) / 5 = i := by omega
    have hm : (i * 5 + k) % 5 = k := by omega
    unfold wordsBit
    rw [hd, hm]
    interval_cases k <;> simp <;> omega
  · rw [if_neg hj]
    have n0 : ¬ (j = i * 5 + 0 ∧ i * 5 + 0 < bits.length) := by omega
    have n1 : ¬ (j = i * 5 + 1 ∧ i * 5 + 1 < bits.length) := by omega
    have n2 : ¬ (j = i * 5 + 2 ∧ i * 5 + 2 < bits.length) := by omega
    have n3 : ¬ (j = i * 5 + 3 ∧ i * 5 + 3 < bits.length) := by omega
    have n4 : ¬ (j = i * 5 + 4 ∧ i * 5 + 4 < bits.length) := by omega
    rw [if_neg n4, if_neg n3, if_neg n2, if_neg n1, if_neg n0]


theorem breakIntoBits_loop (ws : List Int) (n : Nat) (hn : n * 5 ≤ 64) :
    (forLoop n (setWordBits ws) (List.replicate 64 0)).length = 64 ∧
    ∀ j, (forLoop n (setWordBits ws) (List.replicate 64 0)).getD j 0 =
      if j < n * 5 then (wordsBit ws j).toNat else 0 := by
  induction n with
  | zero =>
    refine ⟨by simp only [forLoop, List.length_replicate], fun j => ?_⟩
    simp only [forLoop, getD_replicate_zero, Nat.zero_mul, Nat.not_lt_zero, if_false]
  | succ k ih =>
    obtain ⟨hl, hg⟩ := ih (by omega)
    refine ⟨by simp only [forLoop, length_setWordBits, hl], fun j => ?_⟩
    simp only [forLoop]
    rw [getD_setWordBits ws k _ j (by omega), hg j]
    by_cases h1 : k * 5 ≤ j ∧ j < k * 5 + 5
    · rw [if_pos h1, if_pos (by omega)]
    · rw [if_neg h1]
      by_cases h2 : j < k * 5
      · rw [if_pos h2, if_pos (by omega)]
      · rw [if_neg h2, if_neg (by omega)]

theorem wordsBit_of_le (ws : List Int) (j : Nat) (h : ws.length * 5 ≤ j) :
    wordsBit ws j = false := by
  unfold wordsBit
  have h2 : ws[j / 5]? = none := List.getElem?_eq_none (by omega)
  simp [h2]

theorem getD_breakIntoBits (ws : List Int) (h : ws.length * 5 ≤ 64) (j : Nat) :
    (breakIntoBits ws).getD j 0 = (wordsBit ws j).toNat := by
  unfold breakIntoBits
  rw [(breakIntoBits_loop ws ws.length h).2 j]
  by_cases h1 : j < ws.length * 5
  · rw [if_pos h1]
  · rw [if_neg h1, wordsBit_of_le ws j (by omega)]; rfl

/-! ## The first loop of `bytes_to_bech32` -/

theorem length_setByteBits (bs : List Nat) (i : Nat) (bits : List Nat) :
    (setByteBits bs i bits).length = bits.length := by
  simp [setByteBits]

theorem getD_setByteBits (bs : List Nat) (i : Nat) (bits : List Nat) (j : Nat)
    (h : i * 8 + 8 ≤ bits.length) :
    (setByteBits bs i bits).getD j 0 =
      if i * 8 ≤ j ∧ j < i * 8 + 8 then (streamBit bs j).toNat else bits.getD j 0 := by
  unfold setByteBits
  simp only [getD_set_nat, List.length_set, ite_and_128, ite_and_64, ite_and_32, ite_and_16,
    ite_and_8, ite_and_4, ite_and_2, ite_and_1]
  by_cases hj : i * 8 ≤ j ∧ j < i * 8 + 8
  · rw [if_pos hj]
    obtain ⟨k, hk, rfl⟩ : ∃ k, k < 8 ∧ j = i * 8 + k := ⟨j - i * 8, by omega, by omega⟩
    have hd : (i * 8 + k) / 8 = i := by omega
    have hm : (i * 8 + k) % 8 = k := by omega
    unfold streamBit
    rw [hd, hm]
    interval_cases k <;> simp <;> omega
  · rw [if_neg hj]
    have n0 : ¬ (j = i * 8 + 0 ∧ i * 8 + 0 < bits.length) := by omega
    have n1 : ¬ (j = i * 8 + 1 ∧ i * 8 + 1 < bits.length) := by omega
    have n2 : ¬ (j = i * 8 + 2 ∧ i * 8 + 2 < bits.length) := by omega
    have n3 : ¬ (j = i * 8 + 3 ∧ i * 8 + 3 < bits.length) := by omega
    have n4 : ¬ (j = i * 8 + 4 ∧ i * 8 + 4 < bits.length) := by omega
    have n5 : ¬ (j = i * 8 + 5 ∧ i * 8 + 5 < bits.length) := by omega
    have n6 : ¬ (j = i * 8 + 6 ∧ i * 8 + 6 < bits.length) := by omega
    have n7 : ¬ (j = i * 8 + 7 ∧ i * 8 + 7 < bits.length) := by omega
    rw [if_neg n7, if_neg n6, if_neg n5, if_neg n4, if_neg n3, if_neg n2, if_neg n1, if_neg n0]

theorem le_lenWords (n : Nat) : n * 8 ≤ lenWords n * 5 := by
  unfold lenWords
  split <;> omega

theorem lenWords_eq (n : Nat) : lenWords n = (n * 8 + 4) / 5 := by
  unfold lenWords
  split <;> omega

theorem encodeBits_loop (bs : List Nat) (m n : Nat) (hn : n * 8 ≤ m) :
    (forLoop n (setByteBits bs) (List.replicate m 0)).length = m ∧
    ∀ j, (forLoop n (setByteBits bs) (List.replicate m 0)).getD j 0 =
      if j < n * 8 then (streamBit bs j).toNat else 0 := by
  induction n with
  | zero =>
    refine ⟨by simp only [forLoop, List.length_replicate], fun j => ?_⟩
    simp only [forLoop, getD_replicate_zero, Nat.zero_mul, Nat.not_lt_zero, if_false]
  | succ k ih =>
    obtain ⟨hl, hg⟩ := ih (by omega)
    refine ⟨by simp only [forLoop, length_setByteBits, hl], fun j => ?_⟩
    simp only [forLoop]
    rw [getD_setByteBits bs k _ j (by omega), hg j]
    by_cases h1 : k * 8 ≤ j ∧ j < k * 8 + 8
    · rw [if_pos h1, if_pos (by omega)]
    · rw [if_neg h1]
      by_cases h2 : j < k * 8
      · rw [if_pos h2, if_pos (by omega)]
      · rw [if_neg h2, if_neg (by omega)]

theorem streamBit_of_le (bs : List Nat) (j : Nat) (h : bs.length * 8 ≤ j) :
    streamBit bs j = false := by
  unfold streamBit
  have h2 : bs[j / 8]? = none := List.getElem?_eq_none (by omega)
  simp [h2]

theorem getD_encodeBits (bs : List Nat) (j : Nat) :
    (encodeBits bs).getD j 0 = (streamBit bs j).toNat := by
  unfold encodeBits
  rw [(encodeBits_loop bs _ bs.length (le_lenWords bs.length)).2 j]
  by_cases h1 : j < bs.length * 8
  · rw [if_pos h1]
  · rw [if_neg h1, streamBit_of_le bs j (by omega)]; rfl


/-! ## Packing bits into bytes and words -/

set_option maxRecDepth 100000 in
theorem testBit_pack8 : ∀ c0 c1 c2 c3 c4 c5 c6 c7 : Bool, ∀ t, t < 8 →
    ((if c0 = true then 0x80 else 0) + (if c1 = true then 0x40 else 0) +
      (if c2 = true then 0x20 else 0) + (if c3 = true then 0x10 else 0) +
      (if c4 = true then 0x08 else 0) + (if c5 = true then 0x04 else 0) +
      (if c6 = true then 0x02 else 0) + (if c7 = true then 0x01 else 0)).testBit t =
      [c7, c6, c5, c4, c3, c2, c1, c0].getD t false := by
  decide

theorem pack8_lt (c0 c1 c2 c3 c4 c5 c6 c7 : Bool) :
    ((if c0 = true then 0x80 else 0) + (if c1 = true then 0x40 else 0) +
      (if c2 = true then 0x20 else 0) + (if c3 = true then 0x10 else 0) +
      (if c4 = true then 0x08 else 0) + (if c5 = true then 0x04 else 0) +
      (if c6 = true then 0x02 else 0) + (if c7 = true then 0x01 else 0)) < 256 := by
  split <;> split <;> split <;> split <;> split <;> split <;> split <;> split <;> omega

theorem testBit_pack5 : ∀ c0 c1 c2 c3 c4 : Bool, ∀ t, t < 5 →
    ((if c0 = true then 0x10 else 0) + (if c1 = true then 0x08 else 0) +
      (if c2 = true then 0x04 else 0) + (if c3 = true then 0x02 else 0) +
      (if c4 = true then 0x01 else 0)).testBit t =
      [c4, c3, c2, c1, c0].getD t false := by
  decide

theorem pack5_lt (c0 c1 c2 c3 c4 : Bool) :
    ((if c0 = true then 0x10 else 0) + (if c1 = true then 0x08 else 0) +
      (if c2 = true then 0x04 else 0) + (if c3 = true then 0x02 else 0) +
      (if c4 = true then 0x01 else 0)) < 32 := by
  split <;> split <;> split <;> split <;> split <;> omega

theorem packByte_eq (bits : List Nat) (f : Nat → Bool)
    (hf : ∀ j, bits.getD j 0 = (f j).toNat) (i : Nat) :
    packByte bits i =
      (if f (i * 8 + 0) = true then 0x80 else 0) + (if f (i * 8 + 1) = true then 0x40 else 0) +
      (if f (i * 8 + 2) = true then 0x20 else 0) + (if f (i * 8 + 3) = true then 0x10 else 0) +
      (if f (i * 8 + 4) = true then 0x08 else 0) + (if f (i * 8 + 5) = true then 0x04 else 0) +
      (if f (i * 8 + 6) = true then 0x02 else 0) + (if f (i * 8 + 7) = true then 0x01 else 0) := by
  unfold packByte
  simp only [hf, toNat_ne_zero_iff]

theorem packByte_lt (bits : List Nat) (f : Nat → Bool)
    (hf : ∀ j, bits.getD j 0 = (f j).toNat) (i : Nat) : packByte bits i < 256 := by
  rw [packByte_eq bits f hf i]
  exact pack8_lt _ _ _ _ _ _ _ _

theorem testBit_packByte (bits : List Nat) (f : Nat → Bool)
    (hf : ∀ j, bits.getD j 0 = (f j).toNat) (i t : Nat) (ht : t < 8) :
    (packByte bits i).testBit t = f (i * 8 + (7 - t)) := by
  rw [packByte_eq bits f hf i, testBit_pack8 _ _ _ _ _ _ _ _ t ht]
  interval_cases t <;> rfl

theorem packWord_eq (bits : List Nat) (f : Nat → Bool)
    (hf : ∀ j, bits.getD j 0 = (f j).toNat) (i : Nat) :
    packWord bits i =
      (if f (i * 5 + 0) = true then 0x10 else 0) + (if f (i * 5 + 1) = true then 0x08 else 0) +
      (if f (i * 5 + 2) = true then 0x04 else 0) + (if f (i * 5 + 3) = true then 0x02 else 0) +
      (if f (i * 5 + 4) = true then 0x01 else 0) := by
  unfold packWord
  simp only [hf, toNat_ne_zero_iff]

theorem packWord_lt (bits : List Nat) (f : Nat → Bool)
    (hf : ∀ j, bits.getD j 0 = (f j).toNat) (i : Nat) : packWord bits i < 32 := by
  rw [packWord_eq bits f hf i]
  exact pack5_lt _ _ _ _ _

theorem testBit_packWord (bits : List Nat) (f : Nat → Bool)
    (hf : ∀ j, bits.getD j 0 = (f j).toNat) (i t : Nat) (ht : t < 5) :
    (packWord bits i).testBit t = f (i * 5 + (4 - t)) := by
  rw [packWord_eq bits f hf i, testBit_pack5 _ _ _ _ _ t ht]
  interval_cases t <;> rfl

theorem convertToBytes_eq (bits : List Nat) :
    convertToBytes bits =
      [packByte bits 0, packByte bits 1, packByte bits 2, packByte bits 3,
       packByte bits 4, packByte bits 5, packByte bits 6, packByte bits 7] := by
  rfl

/-! ## Bits of the 64-bit words -/


theorem testBit_loadLE (bs : List Nat) (hb : ∀ b ∈ bs, b < 256) (k : Nat) :
    (loadLE bs).testBit k = (bs.getD (k / 8) 0).testBit (k % 8) := by
  induction bs generalizing k with
  | nil => simp [loadLE]
  | cons b bs ih =>
    have hb0 : b < 2 ^ 8 := hb b (List.mem_cons_self _ _)
    have h1 : loadLE (b :: bs) = 2 ^ 8 * loadLE bs + b := by
      simp only [loadLE]; omega
    rw [h1, Nat.testBit_mul_pow_two_add _ hb0]
    by_cases hk : k < 8
    · rw [if_pos hk]
      have h2 : k / 8 = 0 := by omega
      have h3 : k % 8 = k := by omega
      rw [h2, h3]; rfl
    · rw [if_neg hk, ih (fun b hb1 => hb b (List.mem_cons_of_mem _ hb1))]
      have h2 : k / 8 = (k - 8) / 8 + 1 := by omega
      have h3 : (k - 8) % 8 = k % 8 := by omega
      rw [h2, h3]; rfl

theorem getD_take8 (X : List Nat) (i : Nat) (hi : i < 8) :
    (X.take 8).getD i 0 = X.getD i 0 := by
  simp only [List.getD_eq_getElem?_getD, List.getElem?_take, if_pos hi]

theorem getD_take8_reverse (X : List Nat) (hX : 8 ≤ X.length) (i : Nat) (hi : i < 8) :
    (X.take 8).reverse.getD i 0 = X.getD (7 - i) 0 := by
  have hl : (X.take 8).length = 8 := by simp; omega
  simp only [List.getD_eq_getElem?_getD]
  rw [List.getElem?_reverse (by omega), hl, List.getElem?_take, if_pos (by omega)]

theorem testBit_load64 (e : Endian) (X : List Nat) (hX : 8 ≤ X.length)
    (hb : ∀ b ∈ X, b < 256) (k : Nat) :
    (load64 e X).testBit k =
      (decide (k < 64) && (X.getD (memIdx e (k / 8)) 0).testBit (k % 8)) := by
  have hl : (X.take 8).length = 8 := by simp; omega
  have hbt : ∀ b ∈ X.take 8, b < 256 := fun b h => hb b (List.mem_of_mem_take h)
  by_cases hk : k < 64
  · have hk8 : k / 8 < 8 := by omega
    cases e with
    | little =>
      simp only [load64, memIdx, hk, decide_True, Bool.true_and]
      rw [testBit_loadLE _ hbt, getD_take8 X _ hk8]
    | big =>
      simp only [load64, memIdx, hk, decide_True, Bool.true_and]
      rw [testBit_loadLE _ (fun b h => hbt b (List.mem_reverse.1 h)),
        getD_take8_reverse X hX _ hk8]
  · have hn : ∀ l : List Nat, l.length = 8 → (l.getD (k / 8) 0) = 0 := by
      intro l hl8
      have : l[k / 8]? = none := List.getElem?_eq_none (by omega)
      simp [this]
    cases e with
    | little =>
      simp only [load64, hk, decide_False, Bool.false_and]
      rw [testBit_loadLE _ hbt, hn _ hl]; simp
    | big =>
      simp only [load64, hk, decide_False, Bool.false_and]
      rw [testBit_loadLE _ (fun b h => hbt b (List.mem_reverse.1 h)),
        hn _ (by simpa using hl)]; simp

theorem memIdx_lt (e : Endian) (i : Nat) (hi : i < 8) : memIdx e i < 8 := by
  cases e
  · exact hi
  · show 7 - i < 8
    omega

theorem memIdx_memIdx (e : Endian) (i : Nat) (hi : i < 8) : memIdx e (memIdx e i) = i := by
  cases e
  · rfl
  · show 7 - (7 - i) = i
    omega

/-- The comparison `(x & mask) == value` on three words read from memory is the
comparison of their bits, byte by byte. -/
theorem match_iff_bits (e : Endian) (X M V : List Nat)
    (hX : 8 ≤ X.length) (hM : 8 ≤ M.length) (hV : 8 ≤ V.length)
    (hbX : ∀ b ∈ X, b < 256) (hbM : ∀ b ∈ M, b < 256) (hbV : ∀ b ∈ V, b < 256) :
    load64 e X &&& load64 e M = load64 e V ↔
      ∀ i, i < 8 → ∀ t, t < 8 →
        ((X.getD i 0).testBit t && (M.getD i 0).testBit t) = (V.getD i 0).testBit t := by
  constructor
  · intro h i hi t ht
    have h2 := congrArg (fun y => y.testBit (8 * memIdx e i + t)) h
    simp only [Nat.testBit_and, testBit_load64 e X hX hbX, testBit_load64 e M hM hbM,
      testBit_load64 e V hV hbV] at h2
    have hm := memIdx_lt e i hi
    have h3 : (8 * memIdx e i + t) / 8 = memIdx e i := by omega
    have h4 : (8 * memIdx e i + t) % 8 = t := by omega
    have h5 : 8 * memIdx e i + t < 64 := by omega
    rw [h3, h4, memIdx_memIdx e i hi] at h2
    simpa [h5] using h2
  · intro h
    apply Nat.eq_of_testBit_eq
    intro k
    simp only [Nat.testBit_and, testBit_load64 e X hX hbX, testBit_load64 e M hM hbM,
      testBit_load64 e V hV hbV]
    by_cases hk : k < 64
    · have := h (memIdx e (k / 8)) (memIdx_lt e _ (by omega)) (k % 8) (by omega)
      simp only [hk, decide_True, Bool.true_and]
      exact this
    · simp only [hk, decide_False, Bool.false_and, Bool.and_self]

/-! ## The mask and the value as bit streams -/

theorem bytesOfBits_le_iff (len : Nat) : bytesOfBits (len * 5) ≤ 8 ↔ len ≤ 12 := by
  unfold bytesOfBits
  split <;> omega

theorem bytesOfBits_eq (len : Nat) : bytesOfBits (len * 5) = (len * 5 + 7) / 8 := by
  unfold bytesOfBits
  split <;> omega

theorem lenBytes_of_le (len : Nat) (h : len * 5 ≤ INT_MAX) :
    lenBytes len = some (bytesOfBits (len * 5)) := by
  simp only [lenBytes, h, if_true]

theorem lenBytes_of_gt (len : Nat) (h : INT_MAX < len * 5) : lenBytes len = none := by
  have h2 : ¬ len * 5 ≤ INT_MAX := by omega
  simp only [lenBytes, h2, if_false]

/-- The function `bech32_create_bitfield` for a text whose length fits: the length
check, the loop "Parse words", then the mask and the value. -/
theorem create_of_le (e : Endian) (text : List Char) (h : text.length * 5 ≤ INT_MAX) :
    bech32_create_bitfield e text =
      if bytesOfBits (text.length * 5) > 8 then .error .tooLong
      else
        match parseWords text 0 with
        | .error err => .error err
        | .ok words =>
          .ok (load64 e (createMask (bytesOfBits (text.length * 5)) (text.length * 5 % 8)),
            load64 e (convertToBytes (breakIntoBits words))) := by
  simp only [bech32_create_bitfield, lenBytes_of_le _ h]

theorem create_of_gt (e : Endian) (text : List Char) (h : INT_MAX < text.length * 5) :
    bech32_create_bitfield e text = .error .intOverflow := by
  simp only [bech32_create_bitfield, lenBytes_of_gt _ h]

theorem le_INT_MAX_of_le_12 (len : Nat) (h : len ≤ 12) : len * 5 ≤ INT_MAX := by
  unfold INT_MAX
  omega

set_option maxRecDepth 100000 in
theorem createMask_spec (L : Nat) (hL : L ≤ 12) :
    (createMask (bytesOfBits (L * 5)) (L * 5 % 8)).length = 8 ∧
    (∀ b ∈ createMask (bytesOfBits (L * 5)) (L * 5 % 8), b < 256) ∧
    ∀ i, i < 8 → ∀ t, t < 8 →
      ((createMask (bytesOfBits (L * 5)) (L * 5 % 8)).getD i 0).testBit t =
        decide (i * 8 + (7 - t) < L * 5) := by
  interval_cases L <;> decide

theorem valueBytes_spec (ws : List Int) (h : ws.length * 5 ≤ 64) :
    (convertToBytes (breakIntoBits ws)).length = 8 ∧
    (∀ b ∈ convertToBytes (breakIntoBits ws), b < 256) ∧
    ∀ i, i < 8 → ∀ t, t < 8 →
      ((convertToBytes (breakIntoBits ws)).getD i 0).testBit t =
        wordsBit ws (i * 8 + (7 - t)) := by
  have hf := getD_breakIntoBits ws h
  refine ⟨rfl, ?_, ?_⟩
  · intro b hb
    rw [convertToBytes_eq] at hb
    simp only [List.mem_cons, List.mem_singleton, List.not_mem_nil, or_false] at hb
    rcases hb with rfl | rfl | rfl | rfl | rfl | rfl | rfl | rfl <;>
      exact packByte_lt _ _ hf _
  · intro i hi t ht
    have h1 : (convertToBytes (breakIntoBits ws)).getD i 0 = packByte (breakIntoBits ws) i := by
      rw [convertToBytes_eq]
      interval_cases i <;> rfl
    rw [h1, testBit_packByte _ _ hf i t ht]

/-- The match test against the compiled mask and value compares the leading
`5 * len` bits of the key with the bits of the parsed words. -/
theorem match_iff_stream (e : Endian) (ws : List Int) (hL : ws.length ≤ 12)
    (X : List Nat) (hX : 8 ≤ X.length) (hbX : ∀ b ∈ X, b < 256) :
    load64 e X &&& load64 e (createMask (bytesOfBits (ws.length * 5)) (ws.length * 5 % 8)) =
        load64 e (convertToBytes (breakIntoBits ws)) ↔
      ∀ j, j < ws.length * 5 → streamBit X j = wordsBit ws j := by
  obtain ⟨hMl, hMb, hMt⟩ := createMask_spec ws.length hL
  obtain ⟨hVl, hVb, hVt⟩ := valueBytes_spec ws (by omega)
  rw [match_iff_bits e X _ _ hX (by omega) (by omega) hbX hMb hVb]
  constructor
  · intro h j hj
    have h1 := h (j / 8) (by omega) (7 - j % 8) (by omega)
    rw [hMt _ (by omega) _ (by omega), hVt _ (by omega) _ (by omega)] at h1
    have h2 : j / 8 * 8 + (7 - (7 - j % 8)) = j := by omega
    rw [h2] at h1
    simpa [streamBit, hj] using h1
  · intro h i hi t ht
    rw [hMt i hi t ht, hVt i hi t ht]
    by_cases hj : i * 8 + (7 - t) < ws.length * 5
    · have h1 := h _ hj
      have h2 : (i * 8 + (7 - t)) / 8 = i := by omega
      have h3 : 7 - (i * 8 + (7 - t)) % 8 = t := by omega
      unfold streamBit at h1
      rw [h2, h3] at h1
      simp only [hj, decide_True, Bool.and_true]
      exact h1
    · rw [wordsBit_of_le ws _ (by omega)]
      simp only [hj, decide_False, Bool.and_false]

/-! ## The second loop of `bytes_to_bech32` -/


theorem forLoop_set_eq {α : Type} (g : Nat → α) (n : Nat) (buf : List α)
    (h : n ≤ buf.length) :
    forLoop n (fun i out => out.set i (g i)) buf = (List.range n).map g ++ buf.drop n := by
  induction n with
  | zero => simp [forLoop]
  | succ k ih =>
    have hk : k < buf.length := by omega
    simp only [forLoop]
    rw [ih (by omega), List.set_append_right _ _ (by simp)]
    simp only [List.length_map, List.length_range, Nat.sub_self, List.range_succ,
      List.map_append, List.map_cons, List.map_nil, List.append_assoc, List.singleton_append]
    rw [List.drop_eq_getElem_cons hk, List.set_cons_zero]

theorem charset_getD_ne_nul : ∀ w, w < 32 → bech32_charset.getD w '\x00' ≠ '\x00' := by
  decide

theorem encodeChar_ne_nul (bytes : List Nat) (i : Nat) : encodeChar bytes i ≠ '\x00' :=
  charset_getD_ne_nul _ (packWord_lt _ _ (getD_encodeBits bytes) i)

/-- The string returned by `bytes_to_bech32`: one character per 5-bit word. -/
theorem bytes_to_bech32_eq (bytes : List Nat) (h : lenWords bytes.length < 1024) :
    bytes_to_bech32 bytes =
      some ((List.range (lenWords bytes.length)).map (encodeChar bytes)) := by
  unfold bytes_to_bech32
  simp only [if_pos h]
  rw [forLoop_set_eq (fun i => bech32_charset.getD (packWord (encodeBits bytes) i) '\x00')
    _ _ (by rw [List.length_replicate]; omega)]
  rw [List.set_append_right _ _ (by rw [List.length_map, List.length_range])]
  have hd : List.drop (lenWords bytes.length) (List.replicate 1024 '\x00') =
      '\x00' :: List.replicate (1023 - lenWords bytes.length) '\x00' := by
    rw [List.drop_replicate]
    have : 1024 - lenWords bytes.length = (1023 - lenWords bytes.length) + 1 := by omega
    rw [this]; rfl
  simp only [List.length_map, List.length_range, Nat.sub_self, hd, List.set_cons_zero, cString]
  rw [List.takeWhile_append_of_pos]
  · rw [List.takeWhile_cons_of_neg (by simp), List.append_nil]
    rfl
  · intro a ha
    simp only [List.mem_map, List.mem_range] at ha
    obtain ⟨i, _, rfl⟩ := ha
    have := encodeChar_ne_nul bytes i
    simp only [encodeChar] at this
    simp only [ne_eq, decide_not, Bool.not_eq_true', decide_eq_false_iff_not]
    exact this

/-! ## The reverse table and the loop "Parse words" -/

theorem revLookup_range (c : Char) : revLookup c = -1 ∨ (0 ≤ revLookup c ∧ revLookup c < 32) := by
  have h : ∀ n, n < 128 →
      bech32_charset_rev.getD n (-1) = -1 ∨
        (0 ≤ bech32_charset_rev.getD n (-1) ∧ bech32_charset_rev.getD n (-1) < 32) := by
    decide
  unfold revLookup
  by_cases hc : c.toNat < 128
  · exact h _ hc
  · left
    have : bech32_charset_rev[c.toNat]? = none :=
      List.getElem?_eq_none (by have : bech32_charset_rev.length = 128 := rfl; omega)
    simp [this]

theorem charset_valid : ∀ c ∈ bech32_charset,
    c.toNat < 128 ∧ revLookup c ≠ -1 ∧
      bech32_charset.getD (revLookup c).toNat '\x00' = c := by
  decide

theorem charset_getD_eq_iff : ∀ c ∈ bech32_charset, ∀ w, w < 32 →
    (bech32_charset.getD w '\x00' = c ↔ w = (revLookup c).toNat) := by
  decide

theorem parseWords_ok_iff (text : List Char) (i : Nat) (ws : List Int) :
    parseWords text i = .ok ws ↔
      (∀ c ∈ text, c.toNat < 128 ∧ revLookup c ≠ -1) ∧ ws = text.map revLookup := by
  induction text generalizing i ws with
  | nil =>
    simp only [parseWords, Except.ok.injEq, List.not_mem_nil, false_implies, implies_true,
      List.map_nil, true_and]
    exact eq_comm
  | cons c rest ih =>
    simp only [parseWords, List.mem_cons, forall_eq_or_imp, List.map_cons]
    by_cases h1 : c.toNat < 128
    · by_cases h2 : revLookup c = -1
      · simp [h1, h2]
      · simp only [h1, h2, if_true, if_false, not_false_eq_true, ne_eq, true_and]
        cases hp : parseWords rest (i + 1) with
        | error err =>
          simp only [false_iff, not_and, reduceCtorEq]
          intro hall hws
          have := (ih (i + 1) (rest.map revLookup)).2 ⟨hall, rfl⟩
          rw [hp] at this
          cases this
        | ok ws1 =>
          obtain ⟨hall, hws1⟩ := (ih (i + 1) ws1).1 hp
          simp only [Except.ok.injEq]
          constructor
          · intro h; exact ⟨hall, by rw [← h, hws1]⟩
          · intro h; rw [h.2, hws1]
    · simp [h1]

/-! ## Comparing the encoded key with the prefix -/

theorem map_range_eq_iff {α : Type} (g : Nat → α) (l : List α) (d : α) :
    (List.range l.length).map g = l ↔ ∀ m, m < l.length → g m = l.getD m d := by
  constructor
  · intro h m hm
    have h1 := congrArg (fun x => x.getD m d) h
    simp only [List.getD_eq_getElem?_getD, List.getElem?_map, List.getElem?_range hm,
      Option.map_some', Option.getD_some] at h1
    rw [h1, List.getD_eq_getElem?_getD]
  · intro h
    apply List.ext_getElem (by simp)
    intro n h1 h2
    simp only [List.getElem_map, List.getElem_range]
    rw [h n h2, List.getD_eq_getElem?_getD, List.getElem?_eq_getElem h2, Option.getD_some]

theorem eq_iff_testBit_lt_32 (a b : Nat) (ha : a < 32) (hb : b < 32) :
    a = b ↔ ∀ t, t < 5 → a.testBit t = b.testBit t := by
  constructor
  · intro h t _
    rw [h]
  · intro h
    apply Nat.eq_of_testBit_eq
    intro t
    by_cases ht : t < 5
    · exact h t ht
    · have h5 : 2 ^ 5 ≤ 2 ^ t := Nat.pow_le_pow_right (by norm_num) (by omega)
      rw [Nat.testBit_lt_two_pow (by omega), Nat.testBit_lt_two_pow (by omega)]

theorem revLookup_toNat_lt (c : Char) : (revLookup c).toNat < 32 := by
  rcases revLookup_range c with h | h
  · rw [h]; decide
  · omega

/-- The first characters of the encoded bytes are a given string over the charset
exactly when the leading bits of the bytes are the bits of its words. -/
theorem take_encode_eq_iff_stream (X : List Nat) (p : List Char)
    (hp : ∀ c ∈ p, c ∈ bech32_charset)
    (hW : lenWords X.length < 1024) (hL : p.length ≤ lenWords X.length) :
    (bytes_to_bech32 X).map (List.take p.length) = some p ↔
      ∀ j, j < p.length * 5 → streamBit X j = wordsBit (p.map revLookup) j := by
  rw [bytes_to_bech32_eq X hW]
  simp only [Option.map_some', Option.some.injEq]
  rw [← List.map_take, List.take_range, Nat.min_eq_left hL, map_range_eq_iff _ _ '\x00']
  have key : ∀ m, m < p.length → ∀ t, t < 5 →
      ((packWord (encodeBits X) m).testBit t = ((revLookup (p.getD m '\x00')).toNat).testBit t ↔
        streamBit X (m * 5 + (4 - t)) = wordsBit (p.map revLookup) (m * 5 + (4 - t))) := by
    intro m hm t ht
    rw [testBit_packWord _ _ (getD_encodeBits X) m t ht]
    unfold wordsBit
    have h1 : (m * 5 + (4 - t)) / 5 = m := by omega
    have h2 : 4 - (m * 5 + (4 - t)) % 5 = t := by omega
    rw [h1, h2]
    have h3 : (p.map revLookup).getD m 0 = revLookup (p.getD m '\x00') := by
      simp only [List.getD_eq_getElem?_getD, List.getElem?_map, List.getElem?_eq_getElem hm,
        Option.map_some', Option.getD_some]
    rw [h3]
  have step : ∀ m, m < p.length →
      (encodeChar X m = p.getD m '\x00' ↔
        ∀ t, t < 5 →
          streamBit X (m * 5 + (4 - t)) = wordsBit (p.map revLookup) (m * 5 + (4 - t))) := by
    intro m hm
    have hc : p.getD m '\x00' ∈ bech32_charset := by
      apply hp
      rw [List.getD_eq_getElem?_getD, List.getElem?_eq_getElem hm, Option.getD_some]
      exact List.getElem_mem _
    have hw := packWord_lt _ _ (getD_encodeBits X) m
    unfold encodeChar
    rw [charset_getD_eq_iff _ hc _ hw,
      eq_iff_testBit_lt_32 _ _ hw (revLookup_toNat_lt _)]
    constructor
    · intro h t ht; exact (key m hm t ht).1 (h t ht)
    · intro h t ht; exact (key m hm t ht).2 (h t ht)
  constructor
  · intro h j hj
    have h1 := (step (j / 5) (by omega)).1 (h _ (by omega)) (4 - j % 5) (by omega)
    have h2 : j / 5 * 5 + (4 - (4 - j % 5)) = j := by omega
    rw [h2] at h1
    exact h1
  · intro h m hm
    exact (step m hm).2 (fun t ht => h _ (by omega))

/-! ## Reading and writing 64-bit words -/

theorem storeLE_loadLE (bs : List Nat) (hb : ∀ b ∈ bs, b < 256) :
    storeLE bs.length (loadLE bs) = bs := by
  induction bs with
  | nil => rfl
  | cons b bs ih =>
    have hb0 : b < 256 := hb b (List.mem_cons_self _ _)
    simp only [List.length_cons, storeLE, loadLE]
    have h1 : (b + 256 * loadLE bs) % 256 = b := by omega
    have h2 : (b + 256 * loadLE bs) / 256 = loadLE bs := by omega
    rw [h1, h2, ih (fun x hx => hb x (List.mem_cons_of_mem _ hx))]

theorem store64_load64 (e : Endian) (bs : List Nat) (hl : bs.length = 8)
    (hb : ∀ b ∈ bs, b < 256) : store64 e (load64 e bs) = bs := by
  have ht : bs.take 8 = bs := List.take_of_length_le (by omega)
  cases e with
  | little =>
    simp only [store64, load64, ht]
    rw [← hl]
    exact storeLE_loadLE bs hb
  | big =>
    simp only [store64, load64, ht]
    have h1 := storeLE_loadLE bs.reverse (fun b h => hb b (List.mem_reverse.1 h))
    rw [List.length_reverse, hl] at h1
    rw [h1, List.reverse_reverse]

theorem loadLE_lt (bs : List Nat) (hb : ∀ b ∈ bs, b < 256) :
    loadLE bs < 256 ^ bs.length := by
  induction bs with
  | nil => simp [loadLE]
  | cons b bs ih =>
    have hb0 : b < 256 := hb b (List.mem_cons_self _ _)
    have h1 := ih (fun x hx => hb x (List.mem_cons_of_mem _ hx))
    simp only [loadLE, List.length_cons, pow_succ]
    omega

theorem load64_lt (e : Endian) (bs : List Nat) (hb : ∀ b ∈ bs, b < 256) :
    load64 e bs < 2 ^ 64 := by
  have hbt : ∀ b ∈ bs.take 8, b < 256 := fun b h => hb b (List.mem_of_mem_take h)
  have hl : (bs.take 8).length ≤ 8 := by simp
  have hp : ∀ n, n ≤ 8 → 256 ^ n ≤ 2 ^ 64 := by decide
  cases e with
  | little =>
    exact Nat.lt_of_lt_of_le (loadLE_lt _ hbt) (hp _ hl)
  | big =>
    have h1 := loadLE_lt (bs.take 8).reverse (fun b h => hbt b (List.mem_reverse.1 h))
    rw [List.length_reverse] at h1
    exact Nat.lt_of_lt_of_le h1 (hp _ hl)

theorem load64_take (e : Endian) (bs : List Nat) : load64 e (bs.take 8) = load64 e bs := by
  cases e <;> simp [load64, List.take_take]

/-! ## The result of `bech32_create_bitfield` -/

theorem create_ok_iff (e : Endian) (text : List Char) (m v : Nat) :
    bech32_create_bitfield e text = .ok (m, v) ↔
      text.length ≤ 12 ∧ (∀ c ∈ text, c.toNat < 128 ∧ revLookup c ≠ -1) ∧
        m = load64 e (createMask (bytesOfBits (text.length * 5)) (text.length * 5 % 8)) ∧
        v = load64 e (convertToBytes (breakIntoBits (text.map revLookup))) := by
  by_cases hl : text.length ≤ 12
  · rw [create_of_le e text (le_INT_MAX_of_le_12 _ hl)]
    have h8 : ¬ bytesOfBits (text.length * 5) > 8 := by
      have := (bytesOfBits_le_iff text.length).2 hl
      omega
    rw [if_neg h8]
    cases hp : parseWords text 0 with
    | error err =>
      simp only [reduceCtorEq, false_iff, not_and]
      intro _ hall
      have := (parseWords_ok_iff text 0 (text.map revLookup)).2 ⟨hall, rfl⟩
      rw [hp] at this
      cases this
    | ok ws =>
      obtain ⟨hall, hws⟩ := (parseWords_ok_iff text 0 ws).1 hp
      simp only [Except.ok.injEq, Prod.mk.injEq, hws]
      constructor
      · rintro ⟨h1, h2⟩
        exact ⟨hl, hall, h1.symm, h2.symm⟩
      · rintro ⟨_, _, h1, h2⟩
        exact ⟨h1.symm, h2.symm⟩
  · have hne : bech32_create_bitfield e text ≠ .ok (m, v) := by
      by_cases hov : text.length * 5 ≤ INT_MAX
      · rw [create_of_le e text hov]
        have h8 : bytesOfBits (text.length * 5) > 8 := by
          have := (bytesOfBits_le_iff text.length).not.2 hl
          omega
        rw [if_pos h8]
        simp only [ne_eq, reduceCtorEq, not_false_eq_true]
      · rw [create_of_gt e text (by omega)]
        simp only [ne_eq, reduceCtorEq, not_false_eq_true]
    constructor
    · intro h
      exact absurd h hne
    · intro h
      exact absurd h.1 hl

theorem streamBit_valueBytes (ws : List Int) (h : ws.length * 5 ≤ 64) (j : Nat)
    (hj : j < 64) :
    streamBit (convertToBytes (breakIntoBits ws)) j = wordsBit ws j := by
  obtain ⟨_, _, hVt⟩ := valueBytes_spec ws h
  unfold streamBit
  rw [hVt _ (by omega) _ (by omega)]
  have h2 : j / 8 * 8 + (7 - (7 - j % 8)) = j := by omega
  rw [h2]


/-! ## Claims on the prefix-constraint compiler -/

/-- C1: for a prefix `p` of at most 12 characters of the charset,
`bech32_create_bitfield` succeeds with some `(mask, value)`, and for every key of at
least 8 bytes the test of `run_thread`, `(pubkey.longs[0] & mask) == value`, holds
exactly when the first `p.length` characters of `bytes_to_bech32` of the first 8 key
bytes are `p`. -/
theorem create_bitfield_match_iff_encoded_prefix (e : Endian) (p : List Char)
    (hlen : p.length ≤ 12) (hcs : ∀ c ∈ p, c ∈ bech32_charset) :
    ∃ mask value, bech32_create_bitfield e p = .ok (mask, value) ∧
      ∀ pk : List Nat, 8 ≤ pk.length → (∀ b ∈ pk, b < 256) →
        (load64 e pk &&& mask = value ↔
          (bytes_to_bech32 (pk.take 8)).map (List.take p.length) = some p) := by
  have hall : ∀ c ∈ p, c.toNat < 128 ∧ revLookup c ≠ -1 := fun c hc =>
    ⟨(charset_valid c (hcs c hc)).1, (charset_valid c (hcs c hc)).2.1⟩
  refine ⟨_, _, (create_ok_iff e p _ _).2 ⟨hlen, hall, rfl, rfl⟩, ?_⟩
  intro pk hpk hb
  have hl8 : (pk.take 8).length = 8 := by simp; omega
  have hbt : ∀ b ∈ pk.take 8, b < 256 := fun b h => hb b (List.mem_of_mem_take h)
  have h1 := match_iff_stream e (p.map revLookup) (by simpa using hlen) (pk.take 8)
    (by omega) hbt
  rw [List.length_map, load64_take] at h1
  have hw : lenWords (pk.take 8).length = 13 := by rw [hl8]; rfl
  have h2 := take_encode_eq_iff_stream (pk.take 8) p hcs (by omega) (by omega)
  exact h1.trans h2.symm

/-- C1 at the prefix "qp" on a big-endian host. -/
theorem create_bitfield_match_iff_encoded_prefix_witness :
    ∃ mask value, bech32_create_bitfield .big ['q', 'p'] = .ok (mask, value) ∧
      ∀ pk : List Nat, 8 ≤ pk.length → (∀ b ∈ pk, b < 256) →
        (load64 .big pk &&& mask = value ↔
          (bytes_to_bech32 (pk.take 8)).map (List.take ['q', 'p'].length) =
            some ['q', 'p']) :=
  create_bitfield_match_iff_encoded_prefix .big ['q', 'p'] (by decide) (by decide)

/-- C2: for a prefix `p` of at most 12 characters of the charset, if
`bech32_create_bitfield` returns `(mask, value)` then `bytes_to_bech32` of the 8 bytes
of `value`, in the order in which they were packed, starts with the characters of
`p`. -/
theorem encode_value_bytes_starts_with_prefix (e : Endian) (p : List Char)
    (mask value : Nat) (hlen : p.length ≤ 12) (hcs : ∀ c ∈ p, c ∈ bech32_charset)
    (h : bech32_create_bitfield e p = .ok (mask, value)) :
    (bytes_to_bech32 (store64 e value)).map (List.take p.length) = some p := by
  obtain ⟨_, _, _, hv⟩ := (create_ok_iff e p mask value).1 h
  have hws : (p.map revLookup).length * 5 ≤ 64 := by rw [List.length_map]; omega
  obtain ⟨hVl, hVb, _⟩ := valueBytes_spec (p.map revLookup) hws
  rw [hv, store64_load64 e _ hVl hVb]
  have hw : lenWords (convertToBytes (breakIntoBits (p.map revLookup))).length = 13 := by
    rw [hVl]; rfl
  rw [take_encode_eq_iff_stream _ p hcs (by omega) (by omega)]
  intro j hj
  exact streamBit_valueBytes _ hws j (by omega)

/-- C2 at the prefix "nstr" on a little-endian host. -/
theorem encode_value_bytes_starts_with_prefix_witness :
    (bytes_to_bech32 (store64 .little 0x30169c)).map (List.take ['n', 's', 't', 'r'].length) =
      some ['n', 's', 't', 'r'] :=
  encode_value_bytes_starts_with_prefix .little ['n', 's', 't', 'r'] 0xf0ffff 0x30169c
    (by decide) (by decide) (by rfl)

/-- C5: whenever `bech32_create_bitfield` succeeds with `(mask, value)`, the value has
no bit outside the mask: `value & ~mask == 0` on 64-bit words, and every bit set in
`value` is set in `mask`. -/
theorem value_bits_within_mask (e : Endian) (text : List Char) (mask value : Nat)
    (h : bech32_create_bitfield e text = .ok (mask, value)) :
    value &&& (2 ^ 64 - 1 - mask) = 0 ∧
      ∀ k, value.testBit k = true → mask.testBit k = true := by
  obtain ⟨hlen, _, hm, hv⟩ := (create_ok_iff e text mask value).1 h
  have hws : (text.map revLookup).length * 5 ≤ 64 := by rw [List.length_map]; omega
  obtain ⟨hVl, hVb, hVt⟩ := valueBytes_spec (text.map revLookup) hws
  obtain ⟨hMl, hMb, hMt⟩ := createMask_spec text.length hlen
  have hsub : ∀ k, value.testBit k = true → mask.testBit k = true := by
    intro k hk
    rw [hv, testBit_load64 e _ (by omega) hVb] at hk
    rw [hm, testBit_load64 e _ (by omega) hMb]
    simp only [Bool.and_eq_true, decide_eq_true_eq] at hk ⊢
    obtain ⟨hk64, hbit⟩ := hk
    refine ⟨hk64, ?_⟩
    have hi := memIdx_lt e (k / 8) (by omega)
    rw [hVt _ hi _ (by omega)] at hbit
    rw [hMt _ hi _ (by omega)]
    by_contra hc
    simp only [decide_eq_true_eq, not_lt] at hc
    rw [wordsBit_of_le _ _ (by rw [List.length_map]; omega)] at hbit
    cases hbit
  refine ⟨?_, hsub⟩
  have hmlt : mask < 2 ^ 64 := by rw [hm]; exact load64_lt e _ hMb
  have hsucc : 2 ^ 64 - 1 - mask = 2 ^ 64 - (mask + 1) := by omega
  apply Nat.eq_of_testBit_eq
  intro k
  rw [hsucc, Nat.testBit_and, Nat.testBit_two_pow_sub_succ hmlt, Nat.zero_testBit]
  cases hvk : value.testBit k
  · rfl
  · rw [hsub k hvk]; simp

/-- C5 at the prefix "nstr" on a little-endian host. -/
theorem value_bits_within_mask_witness :
    0x30169c &&& (2 ^ 64 - 1 - 0xf0ffff) = 0 ∧
      ∀ k, (0x30169c).testBit k = true → (0xf0ffff).testBit k = true :=
  value_bits_within_mask .little ['n', 's', 't', 'r'] 0xf0ffff 0x30169c (by rfl)


/-- C6: on success the 8 bytes of the mask are `0xff` for the first `5 * L / 8` bytes,
then, when `r = 5 * L % 8` is not zero, one byte whose top `r` bits are set, then
zeros; exactly the leading `5 * L` bits of the byte sequence are set, and exactly the
leading `ceil(5 * L / 8)` bytes are non-zero. -/
theorem mask_bytes_layout (e : Endian) (text : List Char) (mask value : Nat)
    (h : bech32_create_bitfield e text = .ok (mask, value)) :
    store64 e mask =
        List.replicate (5 * text.length / 8) 0xff ++
        (if 5 * text.length % 8 = 0 then [] else [256 - 2 ^ (8 - 5 * text.length % 8)]) ++
        List.replicate (8 - (5 * text.length + 7) / 8) 0x00 ∧
      (∀ t, t < 8 → (256 - 2 ^ (8 - 5 * text.length % 8)).testBit t =
        decide (8 - 5 * text.length % 8 ≤ t)) ∧
      (∀ j, j < 64 → streamBit (store64 e mask) j = decide (j < 5 * text.length)) ∧
      (∀ i, i < 8 → ((store64 e mask).getD i 0 ≠ 0 ↔ i < (5 * text.length + 7) / 8)) := by
  obtain ⟨hlen, _, hm, _⟩ := (create_ok_iff e text mask value).1 h
  obtain ⟨hMl, hMb, _⟩ := createMask_spec text.length hlen
  rw [hm, store64_load64 e _ hMl hMb]
  generalize text.length = L at hlen
  clear hMl hMb hm h
  interval_cases L <;> decide

/-- C6 at the prefix "nstr" on a little-endian host: the mask bytes are
`ff ff f0 00 00 00 00 00`. -/
theorem mask_bytes_layout_witness :
    store64 .little 0xf0ffff =
        List.replicate (5 * ['n', 's', 't', 'r'].length / 8) 0xff ++
        (if 5 * ['n', 's', 't', 'r'].length % 8 = 0 then []
          else [256 - 2 ^ (8 - 5 * ['n', 's', 't', 'r'].length % 8)]) ++
        List.replicate (8 - (5 * ['n', 's', 't', 'r'].length + 7) / 8) 0x00 ∧
      (∀ t, t < 8 → (256 - 2 ^ (8 - 5 * ['n', 's', 't', 'r'].length % 8)).testBit t =
        decide (8 - 5 * ['n', 's', 't', 'r'].length % 8 ≤ t)) ∧
      (∀ j, j < 64 → streamBit (store64 .little 0xf0ffff) j =
        decide (j < 5 * ['n', 's', 't', 'r'].length)) ∧
      (∀ i, i < 8 → ((store64 .little 0xf0ffff).getD i 0 ≠ 0 ↔
        i < (5 * ['n', 's', 't', 'r'].length + 7) / 8)) :=
  mask_bytes_layout .little ['n', 's', 't', 'r'] 0xf0ffff 0x30169c (by rfl)

theorem parseWords_invalid (text : List Char) (i : Nat)
    (hascii : ∀ c ∈ text, c.toNat < 128) (hbad : ∃ c ∈ text, revLookup c = -1) :
    ∃ c k, parseWords text i = .error (.invalidChar c (i + k)) ∧ text[k]? = some c ∧
      revLookup c = -1 ∧ ∀ j, j < k → ∀ d, text[j]? = some d → revLookup d ≠ -1 := by
  induction text generalizing i with
  | nil =>
    obtain ⟨c, hc, _⟩ := hbad
    cases hc
  | cons a rest ih =>
    have ha : a.toNat < 128 := hascii a (List.mem_cons_self _ _)
    by_cases h2 : revLookup a = -1
    · refine ⟨a, 0, ?_, by simp, h2, fun j hj => absurd hj (Nat.not_lt_zero j)⟩
      simp [parseWords, ha, h2]
    · have hbad2 : ∃ c ∈ rest, revLookup c = -1 := by
        obtain ⟨c, hc, hr⟩ := hbad
        rcases List.mem_cons.1 hc with rfl | hc
        · exact absurd hr h2
        · exact ⟨c, hc, hr⟩
      obtain ⟨c, k, hp, hk, hr, hfirst⟩ :=
        ih (i + 1) (fun c hc => hascii c (List.mem_cons_of_mem _ hc)) hbad2
      refine ⟨c, k + 1, ?_, by simpa using hk, hr, ?_⟩
      · simp only [parseWords, ha, h2, if_true, if_false, hp]
        rw [Nat.add_assoc, Nat.add_comm 1 k]
      · intro j hj d hd
        cases j with
        | zero =>
          simp only [List.getElem?_cons_zero, Option.some.injEq] at hd
          rw [← hd]; exact h2
        | succ j =>
          simp only [List.getElem?_cons_succ] at hd
          exact hfirst j (by omega) d hd

theorem create_invalid (e : Endian) (text : List Char) (hlen : text.length ≤ 12)
    (hascii : ∀ c ∈ text, c.toNat < 128) (hbad : ∃ c ∈ text, revLookup c = -1) :
    ∃ c i, bech32_create_bitfield e text = .error (.invalidChar c i) ∧ text[i]? = some c ∧
      revLookup c = -1 ∧ ∀ j, j < i → ∀ d, text[j]? = some d → revLookup d ≠ -1 := by
  obtain ⟨c, k, hp, hk, hr, hfirst⟩ := parseWords_invalid text 0 hascii hbad
  refine ⟨c, k, ?_, hk, hr, hfirst⟩
  rw [create_of_le e text (le_INT_MAX_of_le_12 _ hlen)]
  have h8 : ¬ bytesOfBits (text.length * 5) > 8 := by
    have := (bytesOfBits_le_iff text.length).2 hlen
    omega
  rw [if_neg h8, hp, Nat.zero_add]

/-- C8: an ASCII prefix of at most 12 characters that contains `b`, `i`, `o` or `1`
makes `bech32_create_bitfield` fail with the invalid-character error, and the
character and index reported are those of the first position whose reverse lookup is
`-1`. -/
theorem excluded_character_rejected (e : Endian) (text : List Char)
    (hlen : text.length ≤ 12) (hascii : ∀ c ∈ text, c.toNat < 128)
    (hbad : ∃ c ∈ text, c ∈ ['b', 'i', 'o', '1']) :
    ∃ c i, bech32_create_bitfield e text = .error (.invalidChar c i) ∧ text[i]? = some c ∧
      revLookup c = -1 ∧ ∀ j, j < i → ∀ d, text[j]? = some d → revLookup d ≠ -1 := by
  have hx : ∀ c ∈ ['b', 'i', 'o', '1'], revLookup c = -1 := by decide
  obtain ⟨c, hc, hm⟩ := hbad
  exact create_invalid e text hlen hascii ⟨c, hc, hx c hm⟩

/-- C8 at the prefix "nostr": the error names `o` at index 1. -/
theorem excluded_character_rejected_witness :
    ∃ c i, bech32_create_bitfield .little ['n', 'o', 's', 't', 'r'] =
        .error (.invalidChar c i) ∧
      ['n', 'o', 's', 't', 'r'][i]? = some c ∧ revLookup c = -1 ∧
      ∀ j, j < i → ∀ d, ['n', 'o', 's', 't', 'r'][j]? = some d → revLookup d ≠ -1 :=
  excluded_character_rejected .little ['n', 'o', 's', 't', 'r'] (by decide) (by decide)
    ⟨'o', by decide, by decide⟩

/-- C9 fails: the reverse lookup of the uppercase letter `A` is 29, not `-1`, and the
prefix "A" compiles to a mask and a value. -/
theorem uppercase_A_accepted :
    revLookup 'A' = 29 ∧ bech32_create_bitfield .little ['A'] = .ok (0xf8, 0xe8) :=
  ⟨by rfl, by rfl⟩

/-- C9 as amended: among the uppercase letters the reverse lookup is `-1` exactly for
`B`, `I` and `O`, and every uppercase letter has the entry of its lowercase letter;
an ASCII prefix of at most 12 characters that contains `B`, `I` or `O` fails with the
invalid-character error; a prefix of at most 12 characters, each a symbol of the
charset or an uppercase letter other than `B`, `I`, `O`, succeeds. -/
theorem uppercase_lookup (e : Endian) :
    (∀ c ∈ uppercaseLetters,
      (revLookup c = -1 ↔ c ∈ ['B', 'I', 'O']) ∧ revLookup c = revLookup c.toLower) ∧
    (∀ text : List Char, text.length ≤ 12 → (∀ c ∈ text, c.toNat < 128) →
      (∃ c ∈ text, c ∈ ['B', 'I', 'O']) →
      ∃ c i, bech32_create_bitfield e text = .error (.invalidChar c i)) ∧
    (∀ text : List Char, text.length ≤ 12 →
      (∀ c ∈ text, c ∈ bech32_charset ∨ (c ∈ uppercaseLetters ∧ c ∉ ['B', 'I', 'O'])) →
      ∃ mask value, bech32_create_bitfield e text = .ok (mask, value)) := by
  refine ⟨by decide, ?_, ?_⟩
  · intro text hlen hascii hbad
    have hx : ∀ c ∈ ['B', 'I', 'O'], revLookup c = -1 := by decide
    obtain ⟨c, hc, hm⟩ := hbad
    obtain ⟨c1, i, h1, _⟩ := create_invalid e text hlen hascii ⟨c, hc, hx c hm⟩
    exact ⟨c1, i, h1⟩
  · intro text hlen hok
    have hu : ∀ c ∈ uppercaseLetters, c ∉ ['B', 'I', 'O'] →
        c.toNat < 128 ∧ revLookup c ≠ -1 := by decide
    refine ⟨_, _, (create_ok_iff e text _ _).2 ⟨hlen, fun c hc => ?_, rfl, rfl⟩⟩
    rcases hok c hc with h | ⟨h1, h2⟩
    · exact ⟨(charset_valid c h).1, (charset_valid c h).2.1⟩
    · exact hu c h1 h2

/-- C9 as amended, on a little-endian host. -/
theorem uppercase_lookup_witness :
    (∀ c ∈ uppercaseLetters,
      (revLookup c = -1 ↔ c ∈ ['B', 'I', 'O']) ∧ revLookup c = revLookup c.toLower) ∧
    (∀ text : List Char, text.length ≤ 12 → (∀ c ∈ text, c.toNat < 128) →
      (∃ c ∈ text, c ∈ ['B', 'I', 'O']) →
      ∃ c i, bech32_create_bitfield .little text = .error (.invalidChar c i)) ∧
    (∀ text : List Char, text.length ≤ 12 →
      (∀ c ∈ text, c ∈ bech32_charset ∨ (c ∈ uppercaseLetters ∧ c ∉ ['B', 'I', 'O'])) →
      ∃ mask value, bech32_create_bitfield .little text = .ok (mask, value)) :=
  uppercase_lookup .little

/-! ## The codec against the reference encoding -/

theorem length_bitstream (bs : List Nat) : (bitstream bs).length = 8 * bs.length := by
  induction bs with
  | nil => rfl
  | cons x bs ih =>
    simp only [bitstream, List.flatMap_cons, List.length_append, List.length_cons] at ih ⊢
    simp only [byteBitsMSB, List.length_cons, List.length_nil]
    omega

theorem getD_bitstream (bs : List Nat) (j : Nat) :
    (bitstream bs).getD j false = streamBit bs j := by
  induction bs generalizing j with
  | nil => simp [bitstream, streamBit]
  | cons x bs ih =>
    have hcons : bitstream (x :: bs) = byteBitsMSB x ++ bitstream bs := by
      simp [bitstream]
    rw [hcons]
    by_cases hj : j < 8
    · have h0 : j / 8 = 0 := by omega
      have h1 : j % 8 = j := by omega
      simp only [streamBit, h0, h1]
      interval_cases j <;> rfl
    · have hl : (byteBitsMSB x).length = 8 := rfl
      rw [List.getD_eq_getElem?_getD, List.getElem?_append_right (by omega), hl,
        ← List.getD_eq_getElem?_getD, ih (j - 8)]
      have h0 : j / 8 = (j - 8) / 8 + 1 := by omega
      have h1 : (j - 8) % 8 = j % 8 := by omega
      simp only [streamBit, h0, h1]
      rfl

theorem encodedLength_eq_lenWords (n : Nat) : encodedLength n = lenWords n := by
  rw [lenWords_eq]
  unfold encodedLength
  omega

theorem length_paddedBitstream (bs : List Nat) :
    (paddedBitstream bs).length = 5 * encodedLength bs.length := by
  have := le_lenWords bs.length
  rw [← encodedLength_eq_lenWords] at this
  simp only [paddedBitstream, List.length_append, length_bitstream, List.length_replicate]
  omega

theorem getD_paddedBitstream (bs : List Nat) (j : Nat) :
    (paddedBitstream bs).getD j false = streamBit bs j := by
  unfold paddedBitstream
  by_cases hj : j < 8 * bs.length
  · rw [List.getD_eq_getElem?_getD,
      List.getElem?_append_left (by rw [length_bitstream]; exact hj),
      ← List.getD_eq_getElem?_getD, getD_bitstream]
  · rw [List.getD_eq_getElem?_getD,
      List.getElem?_append_right (by rw [length_bitstream]; omega),
      List.getElem?_replicate, streamBit_of_le bs j (by omega)]
    split <;> rfl

theorem take5_drop (l : List Bool) (j : Nat) (h : 5 * j + 5 ≤ l.length) :
    (l.drop (5 * j)).take 5 =
      [l.getD (5 * j) false, l.getD (5 * j + 1) false, l.getD (5 * j + 2) false,
       l.getD (5 * j + 3) false, l.getD (5 * j + 4) false] := by
  apply List.ext_getElem
  · simp; omega
  · intro n h1 h2
    simp only [List.length_cons, List.length_nil] at h2
    rw [List.getElem_take, List.getElem_drop]
    have hn : n = 0 ∨ n = 1 ∨ n = 2 ∨ n = 3 ∨ n = 4 := by omega
    have g0 : 5 * j < l.length := by omega
    have g1 : 5 * j + 1 < l.length := by omega
    have g2 : 5 * j + 2 < l.length := by omega
    have g3 : 5 * j + 3 < l.length := by omega
    have g4 : 5 * j + 4 < l.length := by omega
    rcases hn with rfl | rfl | rfl | rfl | rfl <;>
      simp [List.getD_eq_getElem?_getD, List.getElem?_eq_getElem, g0, g1, g2, g3, g4]

theorem bitsToNat5_eq : ∀ c0 c1 c2 c3 c4 : Bool,
    bitsToNat [c0, c1, c2, c3, c4] =
      (if c0 = true then 0x10 else 0) + (if c1 = true then 0x08 else 0) +
      (if c2 = true then 0x04 else 0) + (if c3 = true then 0x02 else 0) +
      (if c4 = true then 0x01 else 0) := by
  decide

/-- The word packed by `bytes_to_bech32` at position `j` is the number formed by
group `j` of the padded bitstream. -/
theorem packWord_eq_group (bs : List Nat) (j : Nat) (hj : j < encodedLength bs.length) :
    packWord (encodeBits bs) j =
      bitsToNat (((paddedBitstream bs).drop (5 * j)).take 5) := by
  rw [take5_drop _ _ (by rw [length_paddedBitstream]; omega), bitsToNat5_eq,
    packWord_eq _ _ (getD_encodeBits bs) j]
  simp only [getD_paddedBitstream, Nat.mul_comm j 5, Nat.add_zero]

theorem encode_ref_eq (bs : List Nat) :
    encode_ref bs = (List.range (lenWords bs.length)).map (encodeChar bs) := by
  unfold encode_ref
  rw [encodedLength_eq_lenWords]
  apply List.map_congr_left
  intro j hj
  rw [List.mem_range, ← encodedLength_eq_lenWords] at hj
  simp only [encodeChar, packWord_eq_group bs j hj]

/-- C4: when `ceil(8 * n / 5) < 1024`, `bytes_to_bech32` returns the reference
encoding, which has `ceil(8 * n / 5)` characters, the `j`-th being the charset symbol
of the number formed by bits `5 * j .. 5 * j + 4` of the zero-padded bitstream. -/
theorem bytes_to_bech32_refines_reference (bytes : List Nat)
    (h : encodedLength bytes.length < 1024) :
    bytes_to_bech32 bytes = some (encode_ref bytes) ∧
      (encode_ref bytes).length = encodedLength bytes.length ∧
      ∀ j, j < encodedLength bytes.length →
        (encode_ref bytes)[j]? =
          some (bech32_charset.getD
            (bitsToNat (((paddedBitstream bytes).drop (5 * j)).take 5)) '\x00') := by
  refine ⟨?_, by simp [encode_ref], fun j hj => ?_⟩
  · rw [encode_ref_eq, bytes_to_bech32_eq bytes (by rw [← encodedLength_eq_lenWords]; exact h)]
  · simp only [encode_ref, List.getElem?_map, List.getElem?_range hj, Option.map_some']

/-- C4 at the two bytes `3a ff`: the encoding is "8tls". -/
theorem bytes_to_bech32_refines_reference_witness :
    bytes_to_bech32 [0x3a, 0xff] = some (encode_ref [0x3a, 0xff]) ∧
      (encode_ref [0x3a, 0xff]).length = encodedLength [0x3a, 0xff].length ∧
      ∀ j, j < encodedLength [0x3a, 0xff].length →
        (encode_ref [0x3a, 0xff])[j]? =
          some (bech32_charset.getD
            (bitsToNat (((paddedBitstream [0x3a, 0xff]).drop (5 * j)).take 5)) '\x00') :=
  bytes_to_bech32_refines_reference [0x3a, 0xff] (by decide)

theorem charset_rev_inverse : ∀ w, w < 32 →
    (bech32_charset.getD w '\x00').toNat < 128 ∧
      revLookup (bech32_charset.getD w '\x00') = (w : Int) := by
  decide

theorem eq_map_range_of_getD (l : List Bool) (f : Nat → Bool) (n : Nat)
    (hl : l.length = n) (h : ∀ j, j < n → l.getD j false = f j) :
    l = (List.range n).map f := by
  apply List.ext_getElem (by simp [hl])
  intro j h1 h2
  have := h j (by omega)
  rw [List.getD_eq_getElem?_getD, List.getElem?_eq_getElem h1, Option.getD_some] at this
  simp [this]

theorem flatMap_range_groups (f : Nat → Bool) (n : Nat) :
    (List.range n).flatMap
        (fun j => [f (j * 5 + (4 - 4)), f (j * 5 + (4 - 3)), f (j * 5 + (4 - 2)),
          f (j * 5 + (4 - 1)), f (j * 5 + (4 - 0))]) =
      (List.range (5 * n)).map f := by
  induction n with
  | zero => rfl
  | succ k ih =>
    have h5 : 5 * (k + 1) = 5 * k + 1 + 1 + 1 + 1 + 1 := by omega
    rw [List.range_succ, List.flatMap_append, ih, h5]
    simp only [List.range_succ, List.flatMap_cons, List.flatMap_nil, List.append_nil,
      List.map_append, List.map_cons, List.map_nil, List.append_assoc, List.singleton_append,
      List.cons_append, List.nil_append]
    have e0 : k * 5 + (4 - 4) = 5 * k := by omega
    have e1 : k * 5 + (4 - 3) = 5 * k + 1 := by omega
    have e2 : k * 5 + (4 - 2) = 5 * k + 1 + 1 := by omega
    have e3 : k * 5 + (4 - 1) = 5 * k + 1 + 1 + 1 := by omega
    have e4 : k * 5 + (4 - 0) = 5 * k + 1 + 1 + 1 + 1 := by omega
    rw [e0, e1, e2, e3, e4]

theorem wordBits_encodeChar (bs : List Nat) (j : Nat) :
    wordBitsMSB (revLookup (encodeChar bs j)).toNat =
      [streamBit bs (j * 5 + (4 - 4)), streamBit bs (j * 5 + (4 - 3)),
        streamBit bs (j * 5 + (4 - 2)), streamBit bs (j * 5 + (4 - 1)),
        streamBit bs (j * 5 + (4 - 0))] := by
  have hw := packWord_lt _ _ (getD_encodeBits bs) j
  have ht := testBit_packWord _ _ (getD_encodeBits bs) j
  unfold encodeChar
  rw [(charset_rev_inverse _ hw).2, Int.toNat_ofNat]
  simp only [wordBitsMSB]
  rw [ht 4 (by omega), ht 3 (by omega), ht 2 (by omega), ht 1 (by omega), ht 0 (by omega)]

/-- C3: when `ceil(8 * n / 5) < 1024`, every character of `bytes_to_bech32 b` has a
reverse-table entry that is a 5-bit value and not `-1`, and those values written as
five bits each, most significant first, are the `8 * n` bits of `b` followed by zero
bits only. -/
theorem reverse_lookup_of_encoding_recovers_bits (bytes : List Nat)
    (h : encodedLength bytes.length < 1024) :
    ∃ out, bytes_to_bech32 bytes = some out ∧
      (∀ c ∈ out, c.toNat < 128 ∧ revLookup c ≠ -1 ∧ 0 ≤ revLookup c ∧ revLookup c < 32) ∧
      out.flatMap (fun c => wordBitsMSB (revLookup c).toNat) =
        bitstream bytes ++ List.replicate (5 * out.length - 8 * bytes.length) false := by
  have hW := encodedLength_eq_lenWords bytes.length
  refine ⟨_, bytes_to_bech32_eq bytes (by rw [← hW]; exact h), ?_, ?_⟩
  · intro c hc
    simp only [List.mem_map, List.mem_range] at hc
    obtain ⟨j, _, rfl⟩ := hc
    have hw := packWord_lt _ _ (getD_encodeBits bytes) j
    obtain ⟨h1, h2⟩ := charset_rev_inverse _ hw
    unfold encodeChar
    rw [h2]
    exact ⟨h1, by omega, by omega, by omega⟩
  · rw [List.flatMap_map]
    simp only [List.length_map, List.length_range, wordBits_encodeChar, ← hW]
    rw [flatMap_range_groups]
    have hp := eq_map_range_of_getD (paddedBitstream bytes) (streamBit bytes) _
      (length_paddedBitstream bytes) (fun j _ => getD_paddedBitstream bytes j)
    rw [← hp]
    rfl

/-- C3 at the two bytes `3a ff`, encoded as "8tls". -/
theorem reverse_lookup_of_encoding_recovers_bits_witness :
    ∃ out, bytes_to_bech32 [0x3a, 0xff] = some out ∧
      (∀ c ∈ out, c.toNat < 128 ∧ revLookup c ≠ -1 ∧ 0 ≤ revLookup c ∧ revLookup c < 32) ∧
      out.flatMap (fun c => wordBitsMSB (revLookup c).toNat) =
        bitstream [0x3a, 0xff] ++
          List.replicate (5 * out.length - 8 * [0x3a, 0xff].length) false :=
  reverse_lookup_of_encoding_recovers_bits [0x3a, 0xff] (by decide)

/-! ## The worker loop when the derivation fails -/

/-- When the derivation fails, the pass still runs the match test, on what the
memory of `pubkey` held before the call. -/
theorem compute_pubkey_of_failure (derive : Derive) (seckey stale : Key)
    (h : derive seckey.bytes = none) : compute_pubkey derive seckey stale = stale := by
  simp [compute_pubkey, h]

theorem bytes_to_bech32_take16 (bytes : List Nat) :
    bytes_to_bech32 (bytes.take 16) =
      some ((List.range (lenWords (bytes.take 16).length)).map (encodeChar (bytes.take 16))) := by
  apply bytes_to_bech32_eq
  have h : (bytes.take 16).length ≤ 16 := by simp
  rw [lenWords_eq]
  omega

/-- Every pass of the loop completes: the mutation and the counter update run
whatever the derivation and the match test did. -/
theorem run_thread_iteration_eq (e : Endian) (derive : Derive) (prefix_mask prefix_value : Nat)
    (stale : Key) (draw : Nat) (w : Worker) :
    run_thread_iteration e derive prefix_mask prefix_value stale draw w =
      some
        { seckey := w.seckey.setLong e (w.i % 4) draw
          i := if w.i + 1 = REPORT_AMOUNT then 0 else w.i + 1
          total_count :=
            if w.i + 1 = REPORT_AMOUNT then w.total_count + REPORT_AMOUNT else w.total_count
          printed :=
            if (compute_pubkey derive w.seckey stale).long e 0 &&& prefix_mask = prefix_value then
              w.printed ++
                [matchLine
                  ((List.range (lenWords
                    ((compute_pubkey derive w.seckey stale).bytes.take 16).length)).map
                    (encodeChar ((compute_pubkey derive w.seckey stale).bytes.take 16)))
                  (bytes_to_hex w.seckey.bytes)]
            else w.printed } := by
  unfold run_thread_iteration
  simp only [bytes_to_bech32_take16]
  by_cases hm : (compute_pubkey derive w.seckey stale).long e 0 &&& prefix_mask = prefix_value
  · by_cases hi : w.i + 1 = REPORT_AMOUNT <;> simp [hm, hi]
  · by_cases hi : w.i + 1 = REPORT_AMOUNT <;> simp [hm, hi]

/-- C10, evaluated: the prefix is "q" (mask bytes `f8 00 ..`, value 0), the private
key is 32 bytes `ff`, for which the derivation fails, and the memory of `pubkey`
holds a key whose first byte is `05`. The pass prints a match line for that stale
key with the private key that failed; the mutation and the counter run as usual. -/
theorem failed_derivation_still_prints :
    bech32_create_bitfield .little ['q'] = .ok (0xf8, 0) ∧
    run_thread_iteration .little (fun _ => none) 0xf8 0
        ⟨(List.range 32).map fun k => (37 * k + 5) % 256⟩ 0x0123456789abcdef
        ⟨⟨List.replicate 32 0xff⟩, 0, 0, []⟩ =
      some ⟨⟨[0xef, 0xcd, 0xab, 0x89, 0x67, 0x45, 0x23, 0x01] ++ List.replicate 24 0xff⟩,
        1, 0,
        [("npub1q54y7ayehm3sst2jw7wvrestxq... " ++
          "ffffffffffffffffffffffffffffffffffffffffffffffffffffffffffffffff\n").toList]⟩ := by
  constructor <;> rfl

/-! ## Words of a key -/

theorem length_storeLE (n v : Nat) : (storeLE n v).length = n := by
  induction n generalizing v with
  | zero => rfl
  | succ k ih => simp [storeLE, ih]

theorem loadLE_storeLE (n v : Nat) : loadLE (storeLE n v) = v % 256 ^ n := by
  induction n generalizing v with
  | zero => simp [storeLE, loadLE, Nat.mod_one]
  | succ k ih =>
    simp only [storeLE, loadLE, ih]
    rw [Nat.pow_succ, Nat.mul_comm (256 ^ k) 256, Nat.mod_mul]

theorem length_store64 (e : Endian) (v : Nat) : (store64 e v).length = 8 := by
  cases e <;> simp [store64, length_storeLE]

theorem load64_store64 (e : Endian) (v : Nat) (hv : v < 2 ^ 64) :
    load64 e (store64 e v) = v := by
  have h8 : (256 : Nat) ^ 8 = 2 ^ 64 := by norm_num
  have ht : (storeLE 8 v).take 8 = storeLE 8 v :=
    List.take_of_length_le (by rw [length_storeLE])
  cases e with
  | little =>
    simp only [load64, store64, ht, loadLE_storeLE, h8]
    exact Nat.mod_eq_of_lt hv
  | big =>
    have ht2 : (storeLE 8 v).reverse.take 8 = (storeLE 8 v).reverse :=
      List.take_of_length_le (by rw [List.length_reverse, length_storeLE])
    simp only [load64, store64, ht2, List.reverse_reverse, loadLE_storeLE, h8]
    exact Nat.mod_eq_of_lt hv

theorem length_setLong (e : Endian) (key : Key) (k v : Nat)
    (hl : key.bytes.length = 32) (hk : k < 4) :
    (key.setLong e k v).bytes.length = 32 := by
  simp only [Key.setLong, List.length_append, List.length_take, List.length_drop,
    length_store64, hl]
  omega

theorem take8_drop_setLong (e : Endian) (key : Key) (k v j : Nat)
    (hl : key.bytes.length = 32) (hk : k < 4) (hj : j < 4) :
    ((key.setLong e k v).bytes.drop (8 * j)).take 8 =
      if j = k then store64 e v else (key.bytes.drop (8 * j)).take 8 := by
  have hs := length_store64 e v
  apply List.ext_getElem?
  intro n
  by_cases hn : n < 8
  · by_cases hjk : j = k
    · subst hjk
      rw [if_pos rfl, List.getElem?_take, if_pos hn, List.getElem?_drop]
      simp only [Key.setLong, List.append_assoc]
      rw [List.getElem?_append_right (by simp),
        List.getElem?_append_left (by simp [hs]; omega)]
      congr 1
      simp
      omega
    · rw [if_neg hjk, List.getElem?_take, if_pos hn, List.getElem?_drop,
        List.getElem?_take, if_pos hn, List.getElem?_drop]
      simp only [Key.setLong, List.append_assoc]
      by_cases hlt : j < k
      · rw [List.getElem?_append_left (by simp; omega), List.getElem?_take,
          if_pos (by omega)]
      · rw [List.getElem?_append_right (by simp; omega),
          List.getElem?_append_right (by simp [hs]; omega), List.getElem?_drop]
        congr 1
        simp [hs]
        omega
  · have h1 : ∀ l : List Nat, (l.take 8)[n]? = none := fun l =>
      List.getElem?_eq_none (by simp; omega)
    rw [h1]
    split
    · exact (List.getElem?_eq_none (by rw [hs]; omega)).symm
    · exact (h1 _).symm

/-- The write `key.longs[k] = v` changes word `k` and no other word. -/
theorem long_setLong (e : Endian) (key : Key) (k v j : Nat)
    (hl : key.bytes.length = 32) (hk : k < 4) (hj : j < 4) (hv : v < 2 ^ 64) :
    (key.setLong e k v).long e j = if j = k then v else key.long e j := by
  unfold Key.long
  rw [← load64_take, take8_drop_setLong e key k v j hl hk hj]
  split
  · exact load64_store64 e v hv
  · exact load64_take e _

/-! ## The worker loop over many passes -/

theorem run_thread_passes_succ (e : Endian) (derive : Derive) (prefix_mask prefix_value : Nat)
    (stale : Nat → Key) (draws : Nat → Nat) (n : Nat) (w wn : Worker)
    (h : run_thread_passes e derive prefix_mask prefix_value stale draws n w = some wn) :
    run_thread_passes e derive prefix_mask prefix_value stale draws (n + 1) w =
      run_thread_iteration e derive prefix_mask prefix_value (stale n) (draws n) wn := by
  simp only [run_thread_passes, h]

/-- The loop never stops by itself, and after `n` passes the local counter is
`n mod 1000` and the worker has added `1000 * (n / 1000)`. -/
theorem run_thread_passes_counters (e : Endian) (derive : Derive)
    (prefix_mask prefix_value : Nat) (stale : Nat → Key) (draws : Nat → Nat) (w0 : Worker)
    (h0 : w0.i = 0) (n : Nat) :
    ∃ wn, run_thread_passes e derive prefix_mask prefix_value stale draws n w0 = some wn ∧
      wn.i = n % 1000 ∧ wn.total_count = w0.total_count + 1000 * (n / 1000) := by
  induction n with
  | zero => exact ⟨w0, rfl, by omega, by omega⟩
  | succ k ih =>
    obtain ⟨wk, hk, hi, ht⟩ := ih
    rw [run_thread_passes_succ e derive prefix_mask prefix_value stale draws k w0 wk hk,
      run_thread_iteration_eq]
    refine ⟨_, rfl, ?_, ?_⟩
    · simp only [REPORT_AMOUNT, hi]
      split <;> omega
    · simp only [REPORT_AMOUNT, hi, ht]
      split <;> omega

/-- The private key keeps its 32 bytes through the passes of the loop. -/
theorem run_thread_passes_length (e : Endian) (derive : Derive)
    (prefix_mask prefix_value : Nat) (stale : Nat → Key) (draws : Nat → Nat) (w0 : Worker)
    (hlen : w0.seckey.bytes.length = 32) (n : Nat) (wn : Worker)
    (h : run_thread_passes e derive prefix_mask prefix_value stale draws n w0 = some wn) :
    wn.seckey.bytes.length = 32 := by
  induction n generalizing wn with
  | zero =>
    simp only [run_thread_passes, Option.some.injEq] at h
    rw [← h]; exact hlen
  | succ k ih =>
    cases hk : run_thread_passes e derive prefix_mask prefix_value stale draws k w0 with
    | none => simp [run_thread_passes, hk] at h
    | some wk =>
      rw [run_thread_passes_succ e derive prefix_mask prefix_value stale draws k w0 wk hk,
        run_thread_iteration_eq, Option.some.injEq] at h
      rw [← h]
      exact length_setLong e _ _ _ (ih wk hk) (Nat.mod_lt _ (by norm_num))

/-- C11: pass number `n` of the loop, counted from 0 at the start of the worker,
writes the fresh draw into word `n mod 4` of the private key and leaves the other
three words as they were, also where `i` goes from 1000 back to 0; so among any 4
consecutive passes each word index occurs exactly once. -/
theorem mutation_replaces_word_n_mod_4 (e : Endian) (derive : Derive)
    (prefix_mask prefix_value : Nat) (stale : Nat → Key) (draws : Nat → Nat) (w0 : Worker)
    (h0 : w0.i = 0) (hlen : w0.seckey.bytes.length = 32) (hdraw : ∀ k, draws k < 2 ^ 64)
    (n : Nat) :
    ∃ wn wn1,
      run_thread_passes e derive prefix_mask prefix_value stale draws n w0 = some wn ∧
      run_thread_passes e derive prefix_mask prefix_value stale draws (n + 1) w0 = some wn1 ∧
      wn1.seckey.long e (n % 4) = draws n ∧
      (∀ k, k < 4 → k ≠ n % 4 → wn1.seckey.long e k = wn.seckey.long e k) ∧
      ∀ k, k < 4 → ∃ j, j < 4 ∧ (n + j) % 4 = k ∧ ∀ j2, j2 < 4 → (n + j2) % 4 = k → j2 = j := by
  obtain ⟨wn, hn, hi, _⟩ :=
    run_thread_passes_counters e derive prefix_mask prefix_value stale draws w0 h0 n
  have hl := run_thread_passes_length e derive prefix_mask prefix_value stale draws w0 hlen
    n wn hn
  have h4 : wn.i % 4 = n % 4 := by rw [hi]; omega
  have hlt : n % 4 < 4 := Nat.mod_lt _ (by norm_num)
  have hs := run_thread_passes_succ e derive prefix_mask prefix_value stale draws n w0 wn hn
  rw [run_thread_iteration_eq] at hs
  refine ⟨wn, _, hn, hs, ?_, ?_, ?_⟩
  · simp only [h4]
    rw [long_setLong e _ _ _ _ hl hlt hlt (hdraw n), if_pos rfl]
  · intro k hk hne
    simp only [h4]
    rw [long_setLong e _ _ _ _ hl hlt hk (hdraw n), if_neg hne]
  · intro k hk
    refine ⟨(k + 4 - n % 4) % 4, Nat.mod_lt _ (by norm_num), by omega, ?_⟩
    intro j2 hj2 hmod
    omega

/-- C11 for passes 999 and 1000, on both sides of the reset of `i`, with a worker
whose key is 32 zero bytes and whose draws are `k mod 7 + 1`. -/
theorem mutation_replaces_word_n_mod_4_witness :
    ∃ wn wn1,
      run_thread_passes .little (fun _ => none) 0xf8 0 (fun _ => ⟨List.replicate 32 0xff⟩)
        (fun k => k % 7 + 1) 999 ⟨⟨List.replicate 32 0⟩, 0, 0, []⟩ = some wn ∧
      run_thread_passes .little (fun _ => none) 0xf8 0 (fun _ => ⟨List.replicate 32 0xff⟩)
        (fun k => k % 7 + 1) (999 + 1) ⟨⟨List.replicate 32 0⟩, 0, 0, []⟩ = some wn1 ∧
      wn1.seckey.long .little (999 % 4) = (fun k => k % 7 + 1) 999 ∧
      (∀ k, k < 4 → k ≠ 999 % 4 →
        wn1.seckey.long .little k = wn.seckey.long .little k) ∧
      ∀ k, k < 4 →
        ∃ j, j < 4 ∧ (999 + j) % 4 = k ∧ ∀ j2, j2 < 4 → (999 + j2) % 4 = k → j2 = j :=
  mutation_replaces_word_n_mod_4 .little (fun _ => none) 0xf8 0
    (fun _ => ⟨List.replicate 32 0xff⟩) (fun k => k % 7 + 1) ⟨⟨List.replicate 32 0⟩, 0, 0, []⟩
    rfl rfl (fun k => by
      show k % 7 + 1 < 2 ^ 64
      omega) 999

/-- C15: for one worker that starts with `i = 0` and a contribution of 0, after `n`
passes the contribution to the shared counter is `1000 * (n / 1000)`, contribution
plus `i` is `n`, and pass `n + 1` adds exactly 1000 when `n + 1` is a multiple of 1000
and nothing otherwise. -/
theorem counter_contribution_after_n_passes (e : Endian) (derive : Derive)
    (prefix_mask prefix_value : Nat) (stale : Nat → Key) (draws : Nat → Nat) (w0 : Worker)
    (h0 : w0.i = 0) (ht0 : w0.total_count = 0) (n : Nat) :
    ∃ wn wn1,
      run_thread_passes e derive prefix_mask prefix_value stale draws n w0 = some wn ∧
      run_thread_passes e derive prefix_mask prefix_value stale draws (n + 1) w0 = some wn1 ∧
      wn.total_count = 1000 * (n / 1000) ∧ wn.total_count + wn.i = n ∧
      wn1.total_count = wn.total_count + (if (n + 1) % 1000 = 0 then 1000 else 0) := by
  obtain ⟨wn, hn, hi, ht⟩ :=
    run_thread_passes_counters e derive prefix_mask prefix_value stale draws w0 h0 n
  obtain ⟨wn1, hn1, _, ht1⟩ :=
    run_thread_passes_counters e derive prefix_mask prefix_value stale draws w0 h0 (n + 1)
  refine ⟨wn, wn1, hn, hn1, by omega, by omega, ?_⟩
  rw [ht1, ht]
  split <;> omega

/-- C15 at pass 1999 to 2000 of a worker whose derivation always fails. -/
theorem counter_contribution_after_n_passes_witness :
    ∃ wn wn1,
      run_thread_passes .little (fun _ => none) 0xf8 0 (fun _ => ⟨List.replicate 32 0xff⟩)
        (fun k => k % 7 + 1) 1999 ⟨⟨List.replicate 32 0⟩, 0, 0, []⟩ = some wn ∧
      run_thread_passes .little (fun _ => none) 0xf8 0 (fun _ => ⟨List.replicate 32 0xff⟩)
        (fun k => k % 7 + 1) (1999 + 1) ⟨⟨List.replicate 32 0⟩, 0, 0, []⟩ = some wn1 ∧
      wn.total_count = 1000 * (1999 / 1000) ∧ wn.total_count + wn.i = 1999 ∧
      wn1.total_count = wn.total_count + (if (1999 + 1) % 1000 = 0 then 1000 else 0) :=
  counter_contribution_after_n_passes .little (fun _ => none) 0xf8 0
    (fun _ => ⟨List.replicate 32 0xff⟩) (fun k => k % 7 + 1)
    ⟨⟨List.replicate 32 0⟩, 0, 0, []⟩ rfl rfl 1999

/-! ## Example constraints -/

/-- C12 fails on a little-endian host: there the first byte of the key is the least
significant byte of `pubkey.longs[0]`, and a key that starts with `3a` followed by
zeros does not pass the test against `0xff00000000000000`, `0x3a00000000000000`. -/
theorem first_byte_test_little_endian :
    load64 .little (0x3a :: List.replicate 31 0) &&& 0xff00000000000000 ≠
      0x3a00000000000000 := by
  decide

/-- C12 as amended: with the mask and the value whose bytes in memory are
`ff 00 00 00 00 00 00 00` and `3a 00 00 00 00 00 00 00`, which on a big-endian host
are the words `0xff00000000000000` and `0x3a00000000000000`, the match test holds
for every key whose first byte is `3a` and fails for every key whose first byte is
`3b`. -/
theorem first_byte_test (e : Endian) (pk : List Nat) (hlen : 8 ≤ pk.length)
    (hb : ∀ b ∈ pk, b < 256) :
    load64 .big [0xff, 0, 0, 0, 0, 0, 0, 0] = 0xff00000000000000 ∧
    load64 .big [0x3a, 0, 0, 0, 0, 0, 0, 0] = 0x3a00000000000000 ∧
    (pk.getD 0 0 = 0x3a →
      load64 e pk &&& load64 e [0xff, 0, 0, 0, 0, 0, 0, 0] =
        load64 e [0x3a, 0, 0, 0, 0, 0, 0, 0]) ∧
    (pk.getD 0 0 = 0x3b →
      load64 e pk &&& load64 e [0xff, 0, 0, 0, 0, 0, 0, 0] ≠
        load64 e [0x3a, 0, 0, 0, 0, 0, 0, 0]) := by
  have hiff := match_iff_bits e pk [0xff, 0, 0, 0, 0, 0, 0, 0] [0x3a, 0, 0, 0, 0, 0, 0, 0]
    hlen (by simp) (by simp) hb (by decide) (by decide)
  refine ⟨by decide, by decide, fun h => ?_, fun h hm => ?_⟩
  · rw [hiff]
    intro i hi t ht
    interval_cases i
    · rw [h]
      interval_cases t <;> rfl
    all_goals simp
  · have h1 := hiff.1 hm 0 (by omega) 0 (by omega)
    rw [h] at h1
    revert h1
    decide

/-- C12 as amended, at a key that starts with `3a` on a little-endian host. -/
theorem first_byte_test_witness :
    load64 .big [0xff, 0, 0, 0, 0, 0, 0, 0] = 0xff00000000000000 ∧
    load64 .big [0x3a, 0, 0, 0, 0, 0, 0, 0] = 0x3a00000000000000 ∧
    ((0x3a :: List.replicate 31 0x77).getD 0 0 = 0x3a →
      load64 .little (0x3a :: List.replicate 31 0x77) &&&
          load64 .little [0xff, 0, 0, 0, 0, 0, 0, 0] =
        load64 .little [0x3a, 0, 0, 0, 0, 0, 0, 0]) ∧
    ((0x3a :: List.replicate 31 0x77).getD 0 0 = 0x3b →
      load64 .little (0x3a :: List.replicate 31 0x77) &&&
          load64 .little [0xff, 0, 0, 0, 0, 0, 0, 0] ≠
        load64 .little [0x3a, 0, 0, 0, 0, 0, 0, 0]) :=
  first_byte_test .little (0x3a :: List.replicate 31 0x77) (by decide) (by decide)

/-! ## The text rendered for a match -/

theorem streamBit_take (l : List Nat) (n j : Nat) (h : j < n * 8) :
    streamBit (l.take n) j = streamBit l j := by
  unfold streamBit
  rw [List.getD_eq_getElem?_getD, List.getElem?_take, if_pos (by omega),
    ← List.getD_eq_getElem?_getD]

/-- A key that passes the match test of a compiled prefix is rendered, from its
first 16 bytes, as a text that starts with the prefix. -/
theorem encode16_of_match (e : Endian) (p : List Char) (mask value : Nat)
    (hcs : ∀ c ∈ p, c ∈ bech32_charset)
    (hc : bech32_create_bitfield e p = .ok (mask, value))
    (pk : List Nat) (hl : 16 ≤ pk.length) (hb : ∀ b ∈ pk, b < 256)
    (hm : load64 e pk &&& mask = value) :
    bytes_to_bech32 (pk.take 16) =
        some ((List.range 26).map (encodeChar (pk.take 16))) ∧
      ((List.range 26).map (encodeChar (pk.take 16))).take p.length = p := by
  obtain ⟨hlen, _, hmask, hval⟩ := (create_ok_iff e p mask value).1 hc
  have hl16 : (pk.take 16).length = 16 := by simp; omega
  have hw : lenWords (pk.take 16).length = 26 := by rw [hl16]; rfl
  have h1 := match_iff_stream e (p.map revLookup) (by simpa using hlen) pk (by omega) hb
  rw [List.length_map, ← hmask, ← hval] at h1
  have h2 := take_encode_eq_iff_stream (pk.take 16) p hcs (by omega) (by omega)
  have h3 := bytes_to_bech32_eq (pk.take 16) (by omega)
  rw [hw] at h3
  refine ⟨h3, ?_⟩
  have h4 : (bytes_to_bech32 (pk.take 16)).map (List.take p.length) = some p := by
    rw [h2]
    intro j hj
    rw [streamBit_take pk 16 j (by omega)]
    exact h1.1 hm j hj
  rw [h3] at h4
  simpa using h4

/-- C16: for a prefix `p` of at most 12 characters of the charset and a 32-byte key
that passes the match test of its compiled constraint, `bytes_to_bech32` of the first
16 key bytes has exactly 26 characters and begins with `p`; and a pass of the loop
either prints nothing or prints one line that reads "npub1" followed by `p`. -/
theorem match_line_starts_with_npub1_prefix (e : Endian) (p : List Char) (mask value : Nat)
    (hlen : p.length ≤ 12) (hcs : ∀ c ∈ p, c ∈ bech32_charset)
    (hc : bech32_create_bitfield e p = .ok (mask, value)) :
    (∀ pk : List Nat, pk.length = 32 → (∀ b ∈ pk, b < 256) →
      load64 e pk &&& mask = value →
      ∃ text, bytes_to_bech32 (pk.take 16) = some text ∧ text.length = 26 ∧
        text.take p.length = p) ∧
    (∀ (derive : Derive) (stale : Key) (draw : Nat) (w w1 : Worker),
      (compute_pubkey derive w.seckey stale).bytes.length = 32 →
      (∀ b ∈ (compute_pubkey derive w.seckey stale).bytes, b < 256) →
      run_thread_iteration e derive mask value stale draw w = some w1 →
      w1.printed = w.printed ∨
        ∃ line, w1.printed = w.printed ++ [line] ∧
          line.take (5 + p.length) = ['n', 'p', 'u', 'b', '1'] ++ p) := by
  constructor
  · intro pk hl hb hm
    obtain ⟨h1, h2⟩ := encode16_of_match e p mask value hcs hc pk (by omega) hb hm
    exact ⟨_, h1, by simp, h2⟩
  · intro derive stale draw w w1 hl hb hrun
    rw [run_thread_iteration_eq, Option.some.injEq] at hrun
    rw [← hrun]
    by_cases hm : (compute_pubkey derive w.seckey stale).long e 0 &&& mask = value
    · right
      simp only [hm, if_true]
      refine ⟨_, rfl, ?_⟩
      have hm2 : load64 e (compute_pubkey derive w.seckey stale).bytes &&& mask = value := by
        simpa [Key.long] using hm
      obtain ⟨h1, h2⟩ := encode16_of_match e p mask value hcs hc _ (by omega) hb hm2
      have hw : lenWords ((compute_pubkey derive w.seckey stale).bytes.take 16).length = 26 := by
        have : ((compute_pubkey derive w.seckey stale).bytes.take 16).length = 16 := by
          simp; omega
        rw [this]; rfl
      rw [hw]
      simp only [matchLine, List.append_assoc, List.cons_append, List.nil_append,
        Nat.add_comm 5 p.length, List.take_succ_cons]
      have h26 : ((List.range 26).map
          (encodeChar ((compute_pubkey derive w.seckey stale).bytes.take 16))).length = 26 := by
        simp
      rw [List.take_append_of_le_length (by omega), h2]
    · left
      simp only [hm, if_false]

/-- C16 at the prefix "q" on a little-endian host. -/
theorem match_line_starts_with_npub1_prefix_witness :
    (∀ pk : List Nat, pk.length = 32 → (∀ b ∈ pk, b < 256) →
      load64 .little pk &&& 0xf8 = 0 →
      ∃ text, bytes_to_bech32 (pk.take 16) = some text ∧ text.length = 26 ∧
        text.take ['q'].length = ['q']) ∧
    (∀ (derive : Derive) (stale : Key) (draw : Nat) (w w1 : Worker),
      (compute_pubkey derive w.seckey stale).bytes.length = 32 →
      (∀ b ∈ (compute_pubkey derive w.seckey stale).bytes, b < 256) →
      run_thread_iteration .little derive 0xf8 0 stale draw w = some w1 →
      w1.printed = w.printed ∨
        ∃ line, w1.printed = w.printed ++ [line] ∧
          line.take (5 + ['q'].length) = ['n', 'p', 'u', 'b', '1'] ++ ['q']) :=
  match_line_starts_with_npub1_prefix .little ['q'] 0xf8 0 (by decide) (by decide) (by rfl)

/-! ## The constraint compiled from "q" -/

/-- C13 fails: the value compiled from "q" is 0, since `q` is symbol 0 of the
charset, not `0x5000000000000000`; a key whose first byte has the top bits `01010`
is rendered with `2` as its first character. -/
theorem q_compiles_to_value_zero :
    bech32_create_bitfield .big ['q'] = .ok (0xf800000000000000, 0) ∧
    bech32_create_bitfield .big ['q'] ≠ .ok (0xf800000000000000, 0x5000000000000000) ∧
    load64 .big (0x50 :: List.replicate 31 0) &&& 0xf800000000000000 = 0x5000000000000000 ∧
    (bytes_to_bech32 ((0x50 :: List.replicate 31 0).take 16)).map (List.take 1) =
      some ['2'] := by
  have h1 : bech32_create_bitfield .big ['q'] = .ok (0xf800000000000000, 0) := by rfl
  refine ⟨h1, ?_, by decide, by rfl⟩
  rw [h1]
  intro h
  simp only [Except.ok.injEq, Prod.mk.injEq] at h
  omega

set_option maxRecDepth 100000 in
theorem top5_zero_iff : ∀ x, x < 256 →
    ((∀ j, j < 5 → x.testBit (7 - j) = false) ↔ x / 8 = 0) := by
  decide

/-- C13 as amended: the constraint compiled from "q" has the mask bytes
`f8 00 00 00 00 00 00 00` (the word `0xf800000000000000` on a big-endian host) and the
value 0; a key matches it exactly when the top 5 bits of its first byte are `00000`,
and `bytes_to_bech32` of the first 16 bytes of a matching key starts with `q`. -/
theorem q_constraint (e : Endian) (pk : List Nat) (hlen : 16 ≤ pk.length)
    (hb : ∀ b ∈ pk, b < 256) :
    bech32_create_bitfield e ['q'] = .ok (load64 e [0xf8, 0, 0, 0, 0, 0, 0, 0], 0) ∧
    load64 .big [0xf8, 0, 0, 0, 0, 0, 0, 0] = 0xf800000000000000 ∧
    (load64 e pk &&& load64 e [0xf8, 0, 0, 0, 0, 0, 0, 0] = 0 ↔ pk.getD 0 0 / 8 = 0) ∧
    (load64 e pk &&& load64 e [0xf8, 0, 0, 0, 0, 0, 0, 0] = 0 →
      ∃ text, bytes_to_bech32 (pk.take 16) = some text ∧ text.head? = some 'q') := by
  have hc : bech32_create_bitfield e ['q'] = .ok (load64 e [0xf8, 0, 0, 0, 0, 0, 0, 0], 0) := by
    cases e <;> rfl
  have hq : ∀ c ∈ ['q'], c ∈ bech32_charset := by decide
  refine ⟨hc, by decide, ?_, ?_⟩
  · obtain ⟨_, _, hmask, hval⟩ := (create_ok_iff e ['q'] _ _).1 hc
    have h1 := match_iff_stream e (['q'].map revLookup) (by decide) pk (by omega) hb
    rw [List.length_map, ← hmask, ← hval] at h1
    rw [h1]
    have hx : pk.getD 0 0 < 256 := by
      rw [List.getD_eq_getElem?_getD, List.getElem?_eq_getElem (by omega), Option.getD_some]
      exact hb _ (List.getElem_mem _)
    rw [← top5_zero_iff _ hx]
    constructor
    · intro h j hj
      have h2 := h j (by simp; omega)
      have h3 : j / 8 = 0 := by omega
      have h4 : j % 8 = j := by omega
      have h5 : wordsBit (['q'].map revLookup) j = false := by
        interval_cases j <;> rfl
      rw [h5] at h2
      simpa [streamBit, h3, h4] using h2
    · intro h j hj
      have hj5 : j < 5 := by simpa using hj
      have h3 : j / 8 = 0 := by omega
      have h4 : j % 8 = j := by omega
      have h5 : wordsBit (['q'].map revLookup) j = false := by
        interval_cases j <;> rfl
      rw [h5]
      simpa [streamBit, h3, h4] using h j hj5
  · intro hm
    obtain ⟨h1, h2⟩ := encode16_of_match e ['q'] _ _ hq hc pk hlen hb hm
    refine ⟨_, h1, ?_⟩
    have h3 : ∀ l : List Char, l.take ['q'].length = ['q'] → l.head? = some 'q' := by
      intro l hl
      cases l with
      | nil => simp at hl
      | cons a l =>
        simp only [List.length_singleton, List.take_succ_cons, List.take_zero,
          List.cons.injEq, and_true] at hl
        simp [hl]
    exact h3 _ h2

/-- C13 as amended, at a key that starts with `05` on a little-endian host. -/
theorem q_constraint_witness :
    bech32_create_bitfield .little ['q'] =
        .ok (load64 .little [0xf8, 0, 0, 0, 0, 0, 0, 0], 0) ∧
    load64 .big [0xf8, 0, 0, 0, 0, 0, 0, 0] = 0xf800000000000000 ∧
    (load64 .little (0x05 :: List.replicate 31 0x77) &&&
        load64 .little [0xf8, 0, 0, 0, 0, 0, 0, 0] = 0 ↔
      (0x05 :: List.replicate 31 0x77).getD 0 0 / 8 = 0) ∧
    (load64 .little (0x05 :: List.replicate 31 0x77) &&&
        load64 .little [0xf8, 0, 0, 0, 0, 0, 0, 0] = 0 →
      ∃ text, bytes_to_bech32 ((0x05 :: List.replicate 31 0x77).take 16) = some text ∧
        text.head? = some 'q') :=
  q_constraint .little (0x05 :: List.replicate 31 0x77) (by decide) (by decide)

/-! ## Extending a prefix -/

/-- Bit `k` of the compiled mask: set when its position in the byte stream is below
`5 * L`. -/
theorem testBit_mask (e : Endian) (L : Nat) (hL : L ≤ 12) (k : Nat) :
    (load64 e (createMask (bytesOfBits (L * 5)) (L * 5 % 8))).testBit k =
      (decide (k < 64) && decide (memIdx e (k / 8) * 8 + (7 - k % 8) < L * 5)) := by
  obtain ⟨hMl, hMb, hMt⟩ := createMask_spec L hL
  rw [testBit_load64 e _ (by omega) hMb]
  by_cases hk : k < 64
  · rw [hMt _ (memIdx_lt e _ (by omega)) _ (by omega)]
  · simp [hk]

theorem testBit_value (e : Endian) (ws : List Int) (h : ws.length ≤ 12) (k : Nat) :
    (load64 e (convertToBytes (breakIntoBits ws))).testBit k =
      (decide (k < 64) && wordsBit ws (memIdx e (k / 8) * 8 + (7 - k % 8))) := by
  obtain ⟨hVl, hVb, hVt⟩ := valueBytes_spec ws (by omega)
  rw [testBit_load64 e _ (by omega) hVb]
  by_cases hk : k < 64
  · rw [hVt _ (memIdx_lt e _ (by omega)) _ (by omega)]
  · simp [hk]

theorem wordsBit_append (ws ws2 : List Int) (j : Nat) (hj : j < ws.length * 5) :
    wordsBit (ws ++ ws2) j = wordsBit ws j := by
  unfold wordsBit
  rw [List.getD_eq_getElem?_getD, List.getElem?_append_left (by omega),
    ← List.getD_eq_getElem?_getD]

/-- C17: when `p` is a leading part of `p2` and both compile, to `(m, v)` and
`(m2, v2)`, then `m & m2 == m` and `v2 & m == v`, so every word that passes the test of
`(m2, v2)` passes the test of `(m, v)`. -/
theorem longer_prefix_narrows_matches (e : Endian) (p p2 : List Char) (m v m2 v2 : Nat)
    (hp : p <+: p2)
    (h : bech32_create_bitfield e p = .ok (m, v))
    (h2 : bech32_create_bitfield e p2 = .ok (m2, v2)) :
    m &&& m2 = m ∧ v2 &&& m = v ∧ ∀ x : Nat, x &&& m2 = v2 → x &&& m = v := by
  obtain ⟨hl, _, hm, hv⟩ := (create_ok_iff e p m v).1 h
  obtain ⟨hl2, _, hm2, hv2⟩ := (create_ok_iff e p2 m2 v2).1 h2
  obtain ⟨t, rfl⟩ := hp
  have hle : p.length ≤ (p ++ t).length := by simp
  have hmm : m &&& m2 = m := by
    apply Nat.eq_of_testBit_eq
    intro k
    rw [Nat.testBit_and, hm, hm2, testBit_mask e _ hl, testBit_mask e _ hl2]
    by_cases hk : k < 64
    · by_cases hj : memIdx e (k / 8) * 8 + (7 - k % 8) < p.length * 5
      · have hj2 : memIdx e (k / 8) * 8 + (7 - k % 8) < (p.length + t.length) * 5 := by
          rw [List.length_append] at hle
          omega
        simp [hk, hj, hj2]
      · simp [hk, hj]
    · simp [hk]
  have hvm : v2 &&& m = v := by
    apply Nat.eq_of_testBit_eq
    intro k
    rw [Nat.testBit_and, hm, hv, hv2, testBit_mask e _ hl,
      testBit_value e _ (by simpa using hl2), testBit_value e _ (by simpa using hl),
      List.map_append]
    by_cases hk : k < 64
    · by_cases hj : memIdx e (k / 8) * 8 + (7 - k % 8) < p.length * 5
      · rw [wordsBit_append _ _ _ (by simpa using hj)]
        simp [hk, hj]
      · rw [wordsBit_of_le (p.map revLookup) _ (by simp; omega)]
        simp [hk, hj]
    · simp [hk]
  refine ⟨hmm, hvm, fun x hx => ?_⟩
  rw [← hmm, Nat.land_comm m m2, ← Nat.land_assoc, hx, hvm]

/-- C17 at "ns" extended to "nstr" on a little-endian host. -/
theorem longer_prefix_narrows_matches_witness :
    0xc0ff &&& 0xf0ffff = 0xc0ff ∧ 0x30169c &&& 0xc0ff = 0x009c ∧
      ∀ x : Nat, x &&& 0xf0ffff = 0x30169c → x &&& 0xc0ff = 0x009c :=
  longer_prefix_narrows_matches .little ['n', 's'] ['n', 's', 't', 'r']
    0xc0ff 0x009c 0xf0ffff 0x30169c ⟨['t', 'r'], rfl⟩ (by rfl) (by rfl)

/-! ## Letter case -/

theorem mem_uppercase_or_toLower_eq (c : Char) : c ∈ uppercaseLetters ∨ c.toLower = c := by
  by_cases h : c.toNat ≥ 65 ∧ c.toNat ≤ 90
  · left
    have hc : c = Char.ofNat c.toNat := (Char.ofNat_toNat c).symm
    rw [hc]
    obtain ⟨h1, h2⟩ := h
    generalize c.toNat = n at h1 h2
    interval_cases n <;> decide
  · right
    simp only [Char.toLower, h, if_false]

theorem uppercase_toLower : ∀ c ∈ uppercaseLetters,
    c.toNat < 128 ∧ c.toLower.toNat < 128 ∧ revLookup c.toLower = revLookup c := by
  decide

theorem toLower_lt_128_iff (c : Char) : c.toLower.toNat < 128 ↔ c.toNat < 128 := by
  rcases mem_uppercase_or_toLower_eq c with h | h
  · have := uppercase_toLower c h
    exact ⟨fun _ => this.1, fun _ => this.2.1⟩
  · rw [h]

theorem revLookup_toLower (c : Char) : revLookup c.toLower = revLookup c := by
  rcases mem_uppercase_or_toLower_eq c with h | h
  · exact (uppercase_toLower c h).2.2
  · rw [h]

theorem parseWords_toLower (text : List Char) (i : Nat) :
    parseWords (text.map Char.toLower) i =
      match parseWords text i with
      | .ok ws => .ok ws
      | .error err => .error (lowerError err) := by
  induction text generalizing i with
  | nil => rfl
  | cons c rest ih =>
    simp only [List.map_cons, parseWords, revLookup_toLower, ih (i + 1)]
    by_cases h1 : c.toNat < 128
    · have h1b := (toLower_lt_128_iff c).2 h1
      by_cases h2 : revLookup c = -1
      · simp [h1, h1b, h2, lowerError]
      · simp only [h1, h1b, h2, if_true, if_false]
        cases parseWords rest (i + 1) <;> rfl
    · have h1b : ¬ c.toLower.toNat < 128 := fun hc => h1 ((toLower_lt_128_iff c).1 hc)
      simp [h1, h1b, lowerError]

theorem create_toLower (e : Endian) (text : List Char) :
    bech32_create_bitfield e (text.map Char.toLower) =
      match bech32_create_bitfield e text with
      | .ok r => .ok r
      | .error err => .error (lowerError err) := by
  by_cases hov : text.length * 5 ≤ INT_MAX
  · rw [create_of_le e text hov,
      create_of_le e (text.map Char.toLower) (by rw [List.length_map]; exact hov)]
    simp only [List.length_map, parseWords_toLower]
    by_cases h8 : bytesOfBits (text.length * 5) > 8
    · simp [h8, lowerError]
    · simp only [h8, if_false]
      cases parseWords text 0 <;> rfl
  · rw [create_of_gt e text (by omega),
      create_of_gt e (text.map Char.toLower) (by rw [List.length_map]; omega)]
    rfl

/-- C18: every uppercase letter has the reverse-table entry of its lowercase letter;
so the run on a text and the run on the lowercased text either both fail, with the
same kind of error at the same index, or both succeed with the same
`(mask, value)`. -/
theorem lookup_ignores_letter_case (e : Endian) (text : List Char) :
    (∀ c ∈ uppercaseLetters, revLookup c = revLookup c.toLower) ∧
    (bech32_create_bitfield e (text.map Char.toLower) =
      match bech32_create_bitfield e text with
      | .ok r => .ok r
      | .error err => .error (lowerError err)) ∧
    ((∃ err, bech32_create_bitfield e text = .error err ∧
        bech32_create_bitfield e (text.map Char.toLower) = .error (lowerError err)) ∨
      (∃ mask value, bech32_create_bitfield e text = .ok (mask, value) ∧
        bech32_create_bitfield e (text.map Char.toLower) = .ok (mask, value))) := by
  have h := create_toLower e text
  refine ⟨fun c hc => (uppercase_toLower c hc).2.2.symm, h, ?_⟩
  cases hr : bech32_create_bitfield e text with
  | error err =>
    left
    rw [hr] at h
    exact ⟨err, rfl, h⟩
  | ok r =>
    right
    rw [hr] at h
    exact ⟨r.1, r.2, rfl, h⟩

/-- C18 at the text "NsTr" on a little-endian host. -/
theorem lookup_ignores_letter_case_witness :
    bech32_create_bitfield .little ['N', 's', 'T', 'r'] = .ok (0xf0ffff, 0x30169c) ∧
    bech32_create_bitfield .little (['N', 's', 'T', 'r'].map Char.toLower) =
      .ok (0xf0ffff, 0x30169c) ∧
    ((∃ err, bech32_create_bitfield .little ['N', 's', 'T', 'r'] = .error err ∧
        bech32_create_bitfield .little (['N', 's', 'T', 'r'].map Char.toLower) =
          .error (lowerError err)) ∨
      (∃ mask value, bech32_create_bitfield .little ['N', 's', 'T', 'r'] = .ok (mask, value) ∧
        bech32_create_bitfield .little (['N', 's', 'T', 'r'].map Char.toLower) =
          .ok (mask, value))) :=
  ⟨by rfl, by rfl, (lookup_ignores_letter_case .little ['N', 's', 'T', 'r']).2.2⟩

/-! ## Array indices -/

/-- The indices computed from the length alone stay inside their arrays when the
length check passes: bit indices below 64, at most 8 mask bytes, and a partial mask
byte only when there is at least one byte. -/
theorem length_indices_in_bounds (len len_bytes : Nat)
    (hb : lenBytes len = some len_bytes) (h : len_bytes ≤ 8) :
    (∀ i, i < len → ∀ k, k < 5 → i * 5 + k < 64) ∧
    (∀ i, i < 8 → ∀ k, k < 8 → i * 8 + k < 64) ∧
    (0 < len * 5 % 8 → 1 ≤ len_bytes ∧ len_bytes - 1 < 8) := by
  have hov : len * 5 ≤ INT_MAX := by
    by_contra hc
    rw [lenBytes_of_gt len (by omega)] at hb
    cases hb
  rw [lenBytes_of_le len hov, Option.some.injEq] at hb
  subst hb
  have hl := (bytesOfBits_le_iff len).1 h
  refine ⟨fun i hi k hk => by omega, fun i hi k hk => by omega, fun hr => ?_⟩
  rw [bytesOfBits_eq] at h ⊢
  have hpos : 0 < len := by
    rcases Nat.eq_zero_or_pos len with h0 | h0
    · rw [h0] at hr
      exact absurd hr (by decide)
    · exact h0
  constructor <;> omega

set_option maxRecDepth 100000 in
/-- C19, evaluated: the two bytes `c3 a9` (the UTF-8 text "é") pass the length check,
and the first lookup `bech32_charset_rev[text[0]]` has an index outside the 128
entries of the table. -/
theorem non_ascii_byte_indexes_outside_table :
    lenBytes [Char.ofNat 0xc3, Char.ofNat 0xa9].length = some 2 ∧
    ¬ (Char.ofNat 0xc3).toNat < bech32_charset_rev.length ∧
    bech32_create_bitfield .little [Char.ofNat 0xc3, Char.ofNat 0xa9] =
      .error (.outOfBounds 0) := by
  refine ⟨by decide, by decide, by rfl⟩

end NostrVanity
